import Mathlib

/-!
# BoR-proof SDK — verification of the deterministic proof core

A shallow embedding of the verification core of the BoR-proof SDK:

* the canonical JSON encoder and content hash (`dumps`, `contentHash`),
* the step executor `BoRRun` (`src/bor/core.py`),
* the rich-proof-bundle builder (`src/bor/bundle.py`),
* the consensus ledger (`src/src/bor_consensus/ledger.py`),
* the self-audit replayer (`src/src/bor_consensus/self_audit.py`).

Machine integers are modelled as `Nat` with explicit reduction modulo `2^32`
where 32-bit wrap-around matters.  Python exceptions are modelled with
`Except`; file-system and console side effects (prints, registry writes,
telemetry hooks) are outside the embedding, as they do not feed into any
commitment value.
-/

namespace BoR

/-! ## 32-bit words over `Nat`

`bor/hash_utils.py` is not part of the sources; per the specification the
content hash is SHA-256 over canonical bytes, hex lower-case, so SHA-256
(FIPS 180-4) is implemented here concretely. -/

/-- `2^32`, the modulus for 32-bit wrap-around arithmetic. -/
def w32 : Nat := 4294967296

/-- Addition modulo `2^32`. -/
def add32 (a b : Nat) : Nat := (a + b) % w32

/-- Bitwise complement of a 32-bit word. -/
def not32 (x : Nat) : Nat := x ^^^ 4294967295

/-- Right rotation of a 32-bit word by `n` places. -/
def rotr32 (n x : Nat) : Nat := ((x >>> n) ||| (x <<< (32 - n))) % w32

/-- `Ch(x,y,z)` from FIPS 180-4. -/
def shaCh (x y z : Nat) : Nat := (x &&& y) ^^^ (not32 x &&& z)

/-- `Maj(x,y,z)` from FIPS 180-4. -/
def shaMaj (x y z : Nat) : Nat := (x &&& y) ^^^ (x &&& z) ^^^ (y &&& z)

/-- `Σ₀` from FIPS 180-4. -/
def bigSigma0 (x : Nat) : Nat := rotr32 2 x ^^^ rotr32 13 x ^^^ rotr32 22 x

/-- `Σ₁` from FIPS 180-4. -/
def bigSigma1 (x : Nat) : Nat := rotr32 6 x ^^^ rotr32 11 x ^^^ rotr32 25 x

/-- `σ₀` from FIPS 180-4. -/
def smallSigma0 (x : Nat) : Nat := rotr32 7 x ^^^ rotr32 18 x ^^^ (x >>> 3)

/-- `σ₁` from FIPS 180-4. -/
def smallSigma1 (x : Nat) : Nat := rotr32 17 x ^^^ rotr32 19 x ^^^ (x >>> 10)

/-- The 64 SHA-256 round constants of FIPS 180-4 §4.2.2 (in decimal). -/
def shaK : List Nat :=
  [1116352408, 1899447441, 3049323471, 3921009573,
   961987163, 1508970993, 2453635748, 2870763221,
   3624381080, 310598401, 607225278, 1426881987,
   1925078388, 2162078206, 2614888103, 3248222580,
   3835390401, 4022224774, 264347078, 604807628,
   770255983, 1249150122, 1555081692, 1996064986,
   2554220882, 2821834349, 2952996808, 3210313671,
   3336571891, 3584528711, 113926993, 338241895,
   666307205, 773529912, 1294757372, 1396182291,
   1695183700, 1986661051, 2177026350, 2456956037,
   2730485921, 2820302411, 3259730800, 3345764771,
   3516065817, 3600352804, 4094571909, 275423344,
   430227734, 506948616, 659060556, 883997877,
   958139571, 1322822218, 1537002063, 1747873779,
   1955562222, 2024104815, 2227730452, 2361852424,
   2428436474, 2756734187, 3204031479, 3329325298]

/-- The eight-word SHA-256 hash state. -/
structure Sha8 where
  a : Nat
  b : Nat
  c : Nat
  d : Nat
  e : Nat
  f : Nat
  g : Nat
  h : Nat

/-- The eight SHA-256 initial hash values of FIPS 180-4 §5.3.3. -/
def shaInit : Sha8 :=
  ⟨1779033703, 3144134277, 1013904242, 2773480762,
   1359893119, 2600822924, 528734635, 1541459225⟩

/-- A `Nat` as eight big-endian bytes (for the padded bit length). -/
def be64 (n : Nat) : List Nat :=
  [(n >>> 56) &&& 255, (n >>> 48) &&& 255, (n >>> 40) &&& 255,
   (n >>> 32) &&& 255, (n >>> 24) &&& 255, (n >>> 16) &&& 255,
   (n >>> 8) &&& 255, n &&& 255]

/-- A 32-bit word as four big-endian bytes. -/
def be32 (n : Nat) : List Nat :=
  [(n >>> 24) &&& 255, (n >>> 16) &&& 255, (n >>> 8) &&& 255, n &&& 255]

/-- SHA-256 padding: append `0x80`, zero bytes, then the 64-bit big-endian
bit length, to reach a multiple of 64 bytes. -/
def shaPad (msg : List Nat) : List Nat :=
  msg ++ 0x80 :: List.replicate ((119 - msg.length % 64) % 64) 0
      ++ be64 (8 * msg.length)

/-- Split a byte list into 64-byte blocks. -/
def chunk64 : List Nat → List (List Nat)
  | [] => []
  | x :: rest => ((x :: rest).take 64) :: chunk64 ((x :: rest).drop 64)
termination_by l => l.length
decreasing_by
  simp only [List.length_drop, List.length_cons]
  omega

/-- Group bytes into 32-bit big-endian words. -/
def bytesToWords : List Nat → List Nat
  | b0 :: b1 :: b2 :: b3 :: rest =>
      ((b0 <<< 24) ||| (b1 <<< 16) ||| (b2 <<< 8) ||| b3) :: bytesToWords rest
  | _ => []

/-- Extend the 16 message words to 64 by the SHA-256 schedule recurrence;
`k` is the number of words still to append. -/
def extendWords : Nat → List Nat → List Nat
  | 0, w => w
  | Nat.succ k, w =>
      let n := w.length
      extendWords k (w ++ [add32 (add32 (smallSigma1 (w.getD (n - 2) 0))
                                        (w.getD (n - 7) 0))
                          (add32 (smallSigma0 (w.getD (n - 15) 0))
                                 (w.getD (n - 16) 0))])

/-- The 64 compression rounds over the working variables `a,…,h`. -/
def shaRounds : List Nat → List Nat → Sha8 → Sha8
  | kc :: ks, wc :: ws, st =>
      let t1 := add32 st.h (add32 (bigSigma1 st.e)
        (add32 (shaCh st.e st.f st.g) (add32 kc wc)))
      let t2 := add32 (bigSigma0 st.a) (shaMaj st.a st.b st.c)
      shaRounds ks ws
        ⟨add32 t1 t2, st.a, st.b, st.c, add32 st.d t1, st.e, st.f, st.g⟩
  | _, _, st => st

/-- One SHA-256 block compression. -/
def shaCompress (st : Sha8) (block : List Nat) : Sha8 :=
  let ws := extendWords 48 (bytesToWords block)
  let r := shaRounds shaK ws st
  ⟨add32 st.a r.a, add32 st.b r.b, add32 st.c r.c, add32 st.d r.d,
   add32 st.e r.e, add32 st.f r.f, add32 st.g r.g, add32 st.h r.h⟩

/-- SHA-256 of a byte list, as its 32 digest bytes. -/
def sha256 (msg : List Nat) : List Nat :=
  let st := (chunk64 (shaPad msg)).foldl shaCompress shaInit
  be32 st.a ++ be32 st.b ++ be32 st.c ++ be32 st.d ++
    be32 st.e ++ be32 st.f ++ be32 st.g ++ be32 st.h

/-- Lower-case hex digit for a value below 16. -/
def hexChar (n : Nat) : Char :=
  if n < 10 then Char.ofNat (48 + n) else Char.ofNat (87 + n)

/-- A byte as two lower-case hex characters. -/
def byteHex (b : Nat) : List Char := [hexChar (b / 16), hexChar (b % 16)]

/-- SHA-256 of a byte list as a lower-case hex string. -/
def sha256hex (msg : List Nat) : String :=
  String.mk (((sha256 msg).map byteHex).flatten)

/-- UTF-8 encoding of a single code point. -/
def utf8Cp (n : Nat) : List Nat :=
  if n < 0x80 then [n]
  else if n < 0x800 then
    [0xc0 ||| (n >>> 6), 0x80 ||| (n &&& 0x3f)]
  else if n < 0x10000 then
    [0xe0 ||| (n >>> 12), 0x80 ||| ((n >>> 6) &&& 0x3f), 0x80 ||| (n &&& 0x3f)]
  else
    [0xf0 ||| (n >>> 18), 0x80 ||| ((n >>> 12) &&& 0x3f),
     0x80 ||| ((n >>> 6) &&& 0x3f), 0x80 ||| (n &&& 0x3f)]

/-- UTF-8 bytes of a string (`str.encode("utf-8")`). -/
def utf8Bytes (s : String) : List Nat :=
  (s.data.map (fun c => utf8Cp c.toNat)).flatten

/-! ## The JSON encoders

Two serialisations occur in the sources.  `src/src/bor_utils/djson.py`
(`dumps`), the ledger writer and the hook canonicaliser use
`json.dumps(obj, sort_keys=True, separators=(",", ":"),
ensure_ascii=False)`; the specification's Canonical Encoder contract and
(per the spec) the content hash of the missing `bor/hash_utils.py` follow
the same rules.  `h_sub` in `src/bor/bundle.py`, however, calls
`json.dumps(obj, separators=(",", ":"), sort_keys=True)` with Python's
default `ensure_ascii=True`, which escapes every non-ASCII character to
`\uXXXX` before the bytes are hashed — so both encoders are embedded.
JSON values carry objects as ordered field lists; Python dictionaries have
unique keys, so the claims only ever use objects whose key lists are
`Nodup`. -/

/-- A JSON value.  Floats are outside the model: no state, configuration or
commitment in the claims involves one. -/
inductive Json where
  | null : Json
  | bool (b : Bool) : Json
  | num (n : Int) : Json
  | str (s : String) : Json
  | arr (items : List Json) : Json
  | obj (fields : List (String × Json)) : Json

/-- The escaping Python's JSON encoder applies inside string literals when
`ensure_ascii=False`: only `\`, `"` and the control range `0x00`–`0x1f` are
escaped; every other character — in particular all non-ASCII — passes
through verbatim. -/
def escapeChar (c : Char) : List Char :=
  if c = '\\' then ['\\', '\\']
  else if c = '"' then ['\\', '"']
  else if c.toNat ≥ 0x20 then [c]
  else if c.toNat = 8 then ['\\', 'b']
  else if c.toNat = 12 then ['\\', 'f']
  else if c.toNat = 10 then ['\\', 'n']
  else if c.toNat = 13 then ['\\', 'r']
  else if c.toNat = 9 then ['\\', 't']
  else '\\' :: 'u' :: '0' :: '0' :: byteHex c.toNat

/-- A JSON string literal: quoted, with `escapeChar` applied per character. -/
def encStr (s : String) : String :=
  String.mk ('"' :: (s.data.map escapeChar).flatten ++ ['"'])

/-- A code point below `0x10000` as four lower-case hex digits. -/
def hexQuad (n : Nat) : List Char :=
  [hexChar (n / 4096 % 16), hexChar (n / 256 % 16),
   hexChar (n / 16 % 16), hexChar (n % 16)]

/-- The escaping of Python's JSON encoder with the default
`ensure_ascii=True` (as `h_sub` uses it): besides `\`, `"` and the control
shortcuts, every character outside `0x20`–`0x7e` is escaped to `\uXXXX`,
non-BMP code points as a surrogate pair. -/
def escapeCharAscii (c : Char) : List Char :=
  if c = '\\' then ['\\', '\\']
  else if c = '"' then ['\\', '"']
  else if c.toNat = 8 then ['\\', 'b']
  else if c.toNat = 12 then ['\\', 'f']
  else if c.toNat = 10 then ['\\', 'n']
  else if c.toNat = 13 then ['\\', 'r']
  else if c.toNat = 9 then ['\\', 't']
  else if 0x20 ≤ c.toNat ∧ c.toNat ≤ 0x7e then [c]
  else if c.toNat < 0x10000 then '\\' :: 'u' :: hexQuad c.toNat
  else
    ('\\' :: 'u' :: hexQuad (0xd800 + (c.toNat - 0x10000) / 1024)) ++
      ('\\' :: 'u' :: hexQuad (0xdc00 + (c.toNat - 0x10000) % 1024))

/-- A JSON string literal under `ensure_ascii=True`. -/
def encStrAscii (s : String) : String :=
  String.mk ('"' :: (s.data.map escapeCharAscii).flatten ++ ['"'])

/-- Python's `str` comparison on character lists: code-point
lexicographic `≤`. -/
def cpLe : List Char → List Char → Bool
  | [], _ => true
  | _ :: _, [] => false
  | a :: as, b :: bs =>
      if a.toNat < b.toNat then true
      else if b.toNat < a.toNat then false
      else cpLe as bs

/-- Python's `s1 <= s2` on strings. -/
def strLe (a b : String) : Prop := cpLe a.data b.data = true

instance : DecidableRel strLe := fun a b =>
  inferInstanceAs (Decidable (cpLe a.data b.data = true))

theorem cpLe_total : ∀ as bs : List Char, cpLe as bs = true ∨ cpLe bs as = true := by
  intro as
  induction as with
  | nil => intro bs; exact Or.inl rfl
  | cons a as ih =>
      intro bs
      cases bs with
      | nil => exact Or.inr rfl
      | cons b bs =>
          by_cases h1 : a.toNat < b.toNat
          · left; simp [cpLe, h1]
          · by_cases h2 : b.toNat < a.toNat
            · right; simp [cpLe, h2]
            · rcases ih bs with h | h
              · left; simp [cpLe, h1, h2, h]
              · right; simp [cpLe, h1, h2, h]

theorem cpLe_trans : ∀ as bs cs : List Char, cpLe as bs = true →
    cpLe bs cs = true → cpLe as cs = true := by
  intro as
  induction as with
  | nil => intro bs cs _ _; rfl
  | cons a as ih =>
      intro bs cs h1 h2
      cases bs with
      | nil => simp [cpLe] at h1
      | cons b bs =>
          cases cs with
          | nil => simp [cpLe] at h2
          | cons c cs =>
              by_cases hab : a.toNat < b.toNat <;>
                by_cases hbc : b.toNat < c.toNat
              · have hac : a.toNat < c.toNat := Nat.lt_trans hab hbc
                simp [cpLe, hac]
              · by_cases hcb : c.toNat < b.toNat
                · simp [cpLe, hbc, hcb] at h2
                · have hac : a.toNat < c.toNat := by omega
                  simp [cpLe, hac]
              · by_cases hba : b.toNat < a.toNat
                · simp [cpLe, hab, hba] at h1
                · have hac : a.toNat < c.toNat := by omega
                  simp [cpLe, hac]
              · by_cases hba : b.toNat < a.toNat
                · simp [cpLe, hab, hba] at h1
                · by_cases hcb : c.toNat < b.toNat
                  · simp [cpLe, hbc, hcb] at h2
                  · have hac : ¬a.toNat < c.toNat := by omega
                    have hca : ¬c.toNat < a.toNat := by omega
                    have hr1 : cpLe as bs = true := by
                      simpa [cpLe, hab, hba] using h1
                    have hr2 : cpLe bs cs = true := by
                      simpa [cpLe, hbc, hcb] using h2
                    simpa [cpLe, hac, hca] using ih bs cs hr1 hr2

theorem char_eq_of_toNat {a b : Char} (h : a.toNat = b.toNat) : a = b :=
  Char.ext (UInt32.ext h)

theorem cpLe_antisymm : ∀ as bs : List Char, cpLe as bs = true →
    cpLe bs as = true → as = bs := by
  intro as
  induction as with
  | nil =>
      intro bs _ h2
      cases bs with
      | nil => rfl
      | cons b bs => simp [cpLe] at h2
  | cons a as ih =>
      intro bs h1 h2
      cases bs with
      | nil => simp [cpLe] at h1
      | cons b bs =>
          by_cases hab : a.toNat < b.toNat
          · have hba : ¬b.toNat < a.toNat := by omega
            simp [cpLe, hab, hba] at h2
          · by_cases hba : b.toNat < a.toNat
            · simp [cpLe, hab, hba] at h1
            · have hn : a.toNat = b.toNat := by omega
              have hc : a = b := char_eq_of_toNat hn
              subst hc
              have hr1 : cpLe as bs = true := by
                simpa [cpLe, hab, hba] using h1
              have hr2 : cpLe bs as = true := by
                simpa [cpLe, hab, hba] using h2
              rw [ih bs hr1 hr2]

theorem strLe_total (a b : String) : strLe a b ∨ strLe b a :=
  cpLe_total a.data b.data

theorem strLe_trans {a b c : String} (h1 : strLe a b) (h2 : strLe b c) :
    strLe a c :=
  cpLe_trans a.data b.data c.data h1 h2

theorem strLe_antisymm {a b : String} (h1 : strLe a b) (h2 : strLe b a) :
    a = b := by
  cases a; cases b
  exact congrArg String.mk (cpLe_antisymm _ _ h1 h2)

instance : IsTotal String strLe := ⟨strLe_total⟩

instance : IsTrans String strLe := ⟨fun _ _ _ => strLe_trans⟩

/-- Key order on already-serialised object fields: Python compares the
keys (code-point lexicographic `str` order). -/
def pairKeyLe (a b : String × String) : Prop := strLe a.1 b.1

instance : DecidableRel pairKeyLe := fun a b =>
  inferInstanceAs (Decidable (strLe a.1 b.1))

/-- Sort serialised fields by key.  Python sorts the field list of a dict,
whose keys are unique, so the order among equal keys never matters there;
`insertionSort` is stable, matching `sorted`. -/
def sortPairs (l : List (String × String)) : List (String × String) :=
  List.insertionSort pairKeyLe l

mutual

/-- `json.dumps(v, sort_keys=True, separators=(",", ":"), ensure_ascii=False)`. -/
def dumps : Json → String
  | .null => "null"
  | .bool true => "true"
  | .bool false => "false"
  | .num n => toString n
  | .str s => encStr s
  | .arr items => "[" ++ String.intercalate "," (dumpsList items) ++ "]"
  | .obj fields =>
      "\x7b" ++ String.intercalate ","
        ((sortPairs (dumpsFields fields)).map
          (fun kv => encStr kv.1 ++ ":" ++ kv.2)) ++ "\x7d"

/-- Serialise each array element. -/
def dumpsList : List Json → List String
  | [] => []
  | j :: js => dumps j :: dumpsList js

/-- Serialise each field's value, keeping its key. -/
def dumpsFields : List (String × Json) → List (String × String)
  | [] => []
  | (k, v) :: fs => (k, dumps v) :: dumpsFields fs

end

mutual

/-- `json.dumps(v, separators=(",", ":"), sort_keys=True)` — `h_sub`'s
call, with Python's default `ensure_ascii=True`. -/
def dumpsAscii : Json → String
  | .null => "null"
  | .bool true => "true"
  | .bool false => "false"
  | .num n => toString n
  | .str s => encStrAscii s
  | .arr items => "[" ++ String.intercalate "," (dumpsAsciiList items) ++ "]"
  | .obj fields =>
      "\x7b" ++ String.intercalate ","
        ((sortPairs (dumpsAsciiFields fields)).map
          (fun kv => encStrAscii kv.1 ++ ":" ++ kv.2)) ++ "\x7d"

/-- Serialise each array element under `ensure_ascii=True`. -/
def dumpsAsciiList : List Json → List String
  | [] => []
  | j :: js => dumpsAscii j :: dumpsAsciiList js

/-- Serialise each field's value under `ensure_ascii=True`. -/
def dumpsAsciiFields : List (String × Json) → List (String × String)
  | [] => []
  | (k, v) :: fs => (k, dumpsAscii v) :: dumpsAsciiFields fs

end

/-- Modelled from the spec: `content_hash` of the missing `bor/hash_utils.py`
— "`hash(value) = SHA-256(encode(value))`, hex-lower-case" over the
canonical encoding of §4.1. -/
def contentHash (v : Json) : String :=
  sha256hex (utf8Bytes (dumps v))

/-- `h_sub` from `src/bor/bundle.py`: SHA-256 of the compact sorted-keys
JSON encoding of a sub-proof result, with Python's default
`ensure_ascii=True` (the source passes no `ensure_ascii` argument, so
non-ASCII text is `\uXXXX`-escaped in the hashed bytes). -/
def hSub (obj : Json) : String :=
  sha256hex (utf8Bytes (dumpsAscii obj))

/-- Python `d[k]` / `d.get(k)` on an object: first field with the key. -/
def jsonGet (v : Json) (key : String) : Option Json :=
  match v with
  | .obj fields => (fields.find? (fun kv => kv.1 == key)).map Prod.snd
  | _ => none

/-- Python truthiness `bool(x)` of a JSON value. -/
def jsonTruthy : Json → Bool
  | .null => false
  | .bool b => b
  | .num n => n != 0
  | .str s => s != ""
  | .arr items => !items.isEmpty
  | .obj fields => !fields.isEmpty

/-- `"|".join(l)`. -/
def joinBar : List String → String
  | [] => ""
  | [s] => s
  | s :: rest => s ++ "|" ++ joinBar rest

/-! ## The step executor (`src/bor/core.py`)

State is threaded by value; the console prints and the invariant-hook
telemetry of `core.py` are pure side effects (the `transform_hook` wrapper
returns the wrapped function's own output unchanged, see
`src/src/bor_core/init_hooks.py`), so they have no embedding.  Python
exceptions become `Except BorError`. -/

/-- The exception taxonomy of the missing `bor/exceptions.py`, as raised by
`core.py`: `DeterminismError`, `HashMismatchError`, plus the `RuntimeError`
of `to_primary_proof`. -/
inductive BorError where
  | determinism (msg : String) : BorError
  | hashMismatch (msg : String) : BorError
  | runtime (msg : String) : BorError
deriving DecidableEq

/-- A caller-supplied step object: its `__name__`, an optional
`__bor_step_name__` decorator attribute, whether `callable(fn)` holds, and
its behaviour on `(state, config, version)` — a result or a raised message. -/
structure StepFn where
  name : String
  borStepName : Option String
  isCallable : Bool
  run : Json → Json → String → Except String Json

/-- A recorded `BoRStep`: function identifier, input state, output state,
configuration, version label, fingerprint. -/
structure BoRStep where
  fnName : String
  inputState : Json
  outputState : Json
  config : Json
  codeVersion : String
  fingerprint : String

/-- `BoRStep.compute_fingerprint`: the content hash of exactly
`{"fn", "input", "config", "version"}` — the output state is not hashed. -/
def BoRStep.computeFp (s : BoRStep) : String :=
  contentHash (Json.obj
    [("fn", Json.str s.fnName), ("input", s.inputState),
     ("config", s.config), ("version", Json.str s.codeVersion)])

/-- The frozen `Proof` dataclass: meta, step records, stage hashes, master. -/
structure Proof where
  meta : Json
  steps : List Json
  stageHashes : List String
  master : String

/-- The `BoRRun` controller state.  `S0` is both `S0` and `S0_initial` of the
source (never reassigned there); `env` is the opaque environment fingerprint
obtained from the external collaborator at construction time. -/
structure BoRRun where
  S0 : Json
  C : Json
  V : String
  env : Json
  P0 : String
  steps : List BoRStep
  finalStateOpt : Option Json
  proof : Option Proof

/-- `BoRRun.__init__`: stores the inputs and computes the initialisation
hash `P0 = content_hash({"S0": S0, "C": C, "V": V, "env": env})`. -/
def BoRRun.init (S0 C : Json) (V : String) (env : Json) : BoRRun :=
  { S0 := S0, C := C, V := V, env := env
    P0 := contentHash (Json.obj
      [("S0", S0), ("C", C), ("V", Json.str V), ("env", env)])
    steps := [], finalStateOpt := none, proof := none }

/-- The input fed to a step: the initial state for the first step, else the
previous step's output (`self._final_state`). -/
def prevStateOf (r : BoRRun) : Json :=
  if r.steps.isEmpty then r.S0 else r.finalStateOpt.getD r.S0

/-- The step record `add_step` builds on success for output `out`:
name from the decorator attribute if present, fingerprint from
`compute_fingerprint` (initialised `None`, then filled in). -/
def stepRecordOf (r : BoRRun) (fn : StepFn) (out : Json) : BoRStep :=
  let base : BoRStep :=
    { fnName := fn.borStepName.getD fn.name, inputState := prevStateOf r
      outputState := out, config := r.C, codeVersion := r.V, fingerprint := "" }
  { base with fingerprint := base.computeFp }

/-- `BoRRun.add_step`: reject non-callables, apply
`fn(prev_state, config, version)`, turn a raise into a `DeterminismError`
naming the function, and otherwise append the fingerprinted step record. -/
def addStep (r : BoRRun) (fn : StepFn) : Except BorError BoRRun :=
  if !fn.isCallable then
    Except.error (BorError.determinism "Step must be a callable.")
  else
    match fn.run (prevStateOf r) r.C r.V with
    | Except.error e =>
        Except.error (BorError.determinism
          ("Function " ++ fn.name ++ " failed deterministically: " ++ e))
    | Except.ok out =>
        Except.ok { r with steps := r.steps ++ [stepRecordOf r fn out]
                           finalStateOpt := some out }

/-- `BoRRun._stage_hashes`: the ordered step fingerprints. -/
def stageHashesOf (r : BoRRun) : List String :=
  r.steps.map (fun s => s.fingerprint)

/-- The JSON step records exported by `finalize`. -/
def stepRecordsOf (r : BoRRun) : List Json :=
  r.steps.enum.map (fun p => Json.obj
    [("i", Json.num ((p.1 : Int) + 1)), ("fn", Json.str p.2.fnName),
     ("input", p.2.inputState), ("output", p.2.outputState),
     ("config", p.2.config), ("version", Json.str p.2.codeVersion),
     ("fingerprint", Json.str p.2.fingerprint)])

/-- `BoRRun.finalize`: `HMASTER = content_hash("P2|" + "|".join(h_i))`, the
primary proof object, and the run with `self.proof` assigned.  Returns the
updated run together with the returned proof. -/
def finalize (r : BoRRun) : BoRRun × Proof :=
  let sh := stageHashesOf r
  let HMASTER := contentHash (Json.str ("P2|" ++ joinBar sh))
  let p : Proof :=
    { meta := Json.obj
        [("S0", r.S0), ("C", r.C), ("V", Json.str r.V),
         ("env", r.env), ("H0", Json.str r.P0)]
      steps := stepRecordsOf r, stageHashes := sh, master := HMASTER }
  ({ r with proof := some p }, p)

/-- `BoRRun.to_primary_proof`: the JSON-ready primary proof dict; a
`RuntimeError` before `finalize`. -/
def toPrimaryProof (r : BoRRun) : Except BorError Json :=
  match r.proof with
  | none => Except.error (BorError.runtime
      "Call finalize() before exporting the primary proof.")
  | some p => Except.ok (Json.obj
      [("meta", p.meta), ("steps", Json.arr p.steps),
       ("stage_hashes", Json.arr (p.stageHashes.map Json.str)),
       ("master", Json.str p.master)])

/-- `BoRRun.run_steps` / the `for fn in stages: r.add_step(fn)` loop: the
first raised error aborts the remaining steps. -/
def runStepList : BoRRun → List StepFn → Except BorError BoRRun
  | r, [] => Except.ok r
  | r, fn :: fns =>
      match addStep r fn with
      | Except.error e => Except.error e
      | Except.ok r1 => runStepList r1 fns

/-- `BoRRun.verify`: recompute `finalize` from the recorded steps and raise
`HashMismatchError` when the recomputed master differs from the stored one.
The recomputation reassigns `self.proof`, so the (possibly updated) run is
returned with the `True` result. -/
def verify (r : BoRRun) : Except BorError (BoRRun × Bool) :=
  match r.proof with
  | none => Except.error (BorError.determinism
      "Run must be finalized before verification.")
  | some p =>
      let rec1 := finalize r
      if rec1.2.master ≠ p.master then
        Except.error (BorError.hashMismatch
          "Master proof mismatch: reasoning diverged.")
      else
        Except.ok (rec1.1, true)

/-! ## The rich-proof-bundle builder (`src/bor/bundle.py`)

The eight sub-proof routines live in `bor/subproofs.py`, which is not among
the sources.  Modelled from the spec: each auxiliary check is an isolated,
deterministic routine run against the same `(state, config, version, step
functions)` tuple (`run_PoPI` against the primary proof, `run_DP` with its
perturbation argument, `run_PEP_bad_signature` with no inputs), returning a
result structure; a bundle builder is therefore parametrised by the suite. -/

/-- Modelled from the spec: the fixed suite of auxiliary checks of
`bor/subproofs.py`, each a pure function of the inputs `bundle.py` passes
it.  `runPEP` is the `(pep_ok, pep_exc)` pair `run_PEP_bad_signature()`
returns. -/
structure SubproofSuite where
  runDIP : Json → Json → String → List StepFn → Json
  runDP : Json → Json → String → List StepFn → Json → Json
  runPEP : Bool × Json
  runPoPI : Json → Json
  runCCP : Json → Json → String → List StepFn → Json
  runCMIP : Json → Json → String → List StepFn → Json
  runPP : Json → Json → String → List StepFn → Json
  runTRP : Json → Json → String → List StepFn → Json

/-- `build_primary`: run the chain end-to-end and export the primary proof
dict. -/
def buildPrimary (S0 C : Json) (V : String) (stages : List StepFn)
    (env : Json) : Except BorError Json :=
  match runStepList (BoRRun.init S0 C V env) stages with
  | Except.error e => Except.error e
  | Except.ok r => toPrimaryProof (finalize r).1

/-- A rich proof bundle, field for field as assembled by `build_bundle`.
`subproofs` and `subproofHashes` keep the source's insertion order. -/
structure Bundle where
  primary : Json
  subproofs : List (String × Json)
  subproofHashes : List (String × String)
  H_RICH : String
  H_MASTER : Json
  generatedAt : String

/-- `sorted(keys)` for the sub-proof names: code-point ascending. -/
def sortKeys (l : List String) : List String :=
  List.insertionSort strLe l

/-- Lookup in an association list with unique keys (`sub_hashes[k]`). -/
def lookupStr (l : List (String × String)) (k : String) : String :=
  ((l.find? (fun kv => kv.1 == k)).map Prod.snd).getD ""

/-- `build_bundle`: primary proof, the eight sub-proofs, their `h_sub`
hashes, and `H_RICH` = SHA-256 of the sub-proof hashes joined with `"|"` in
lexicographically sorted key order.  The trailing invariant-hook block of
the source (registry metrics, drift print-out against a previously
persisted bundle) only performs I/O and never alters the returned value. -/
def buildBundle (sp : SubproofSuite) (S0 C : Json) (V : String)
    (stages : List StepFn) (env : Json) (generatedAt : String) :
    Except BorError Bundle :=
  match buildPrimary S0 C V stages env with
  | Except.error e => Except.error e
  | Except.ok primary =>
      let dip := sp.runDIP S0 C V stages
      let dp := sp.runDP S0 C V stages
        (Json.obj [("C", Json.obj [("__bor_delta__", Json.num 1)])])
      let pep := Json.obj
        [("ok", Json.bool sp.runPEP.1), ("exception", sp.runPEP.2)]
      let popi := sp.runPoPI primary
      let ccp := sp.runCCP S0 C V stages
      let cmip := sp.runCMIP S0 C V stages
      let pp := sp.runPP S0 C V stages
      let trp := sp.runTRP S0 C V stages
      let subproofs : List (String × Json) :=
        [("DIP", dip), ("DP", dp), ("PEP", pep), ("PoPI", popi),
         ("CCP", ccp), ("CMIP", cmip), ("PP", pp), ("TRP", trp)]
      let subHashes := subproofs.map (fun kv => (kv.1, hSub kv.2))
      let H_RICH := sha256hex (utf8Bytes (joinBar
        ((sortKeys (subHashes.map Prod.fst)).map (lookupStr subHashes))))
      Except.ok
        { primary := primary, subproofs := subproofs
          subproofHashes := subHashes, H_RICH := H_RICH
          H_MASTER := (jsonGet primary "master").getD Json.null
          generatedAt := generatedAt }

/-! ## The consensus ledger (`src/src/bor_consensus/ledger.py`)

Registry entries are JSON objects; the fields `compute_epochs` reads are
`H_RICH`, `hash` and `user`, each possibly absent.  `datetime.date.today()`
is an external input and becomes the `today` parameter. -/

/-- A registry entry as `compute_epochs` sees it: `user`, `H_RICH` and
`hash` fields, `none` when the key is absent. -/
structure Entry where
  user : Option String
  hrich : Option String
  hashField : Option String
deriving DecidableEq

/-- `e.get("H_RICH") or e.get("hash")` followed by the `if h:` guard:
an empty or missing `H_RICH` falls back to `hash`; a still-falsy result
drops the entry. -/
def entryHash (e : Entry) : Option String :=
  let h := match e.hrich with
    | some s => if s ≠ "" then some s else e.hashField
    | none => e.hashField
  match h with
  | some s => if s = "" then none else some s
  | none => none

/-- `v.get("user", "unknown")`. -/
def userOf (e : Entry) : String := e.user.getD "unknown"

/-- `defaultdict(list)` update: append `e` to the group keyed `h`, creating
the group at the end on first occurrence (Python dicts iterate in insertion
order). -/
def insertGroup : List (String × List Entry) → String → Entry →
    List (String × List Entry)
  | [], h, e => [(h, [e])]
  | (k, v) :: rest, h, e =>
      if k = h then (k, v ++ [e]) :: rest
      else (k, v) :: insertGroup rest h e

/-- `group_by_hrich`: group the entries by their hash, skipping entries
with no usable hash. -/
def groupByHrich (entries : List Entry) : List (String × List Entry) :=
  entries.foldl
    (fun acc e =>
      match entryHash e with
      | none => acc
      | some h => insertGroup acc h e)
    []

/-- A consensus epoch record. -/
structure Epoch where
  epoch : String
  hash : String
  verifiers : List String
  count : Nat
  status : String
deriving DecidableEq

/-- `sorted(...)` over a set of strings: ascending code-point order of the
distinct elements. -/
def sortedDistinct (l : List String) : List String :=
  List.insertionSort strLe l.dedup

/-- The epoch built for one group. -/
def epochOfGroup (today : String) (minQuorum : Nat)
    (h : String) (vlist : List Entry) : Epoch :=
  let users := sortedDistinct (vlist.map userOf)
  { epoch := today, hash := h, verifiers := users, count := users.length
    status := if users.length ≥ minQuorum then "CONSENSUS_CONFIRMED"
              else "PENDING" }

/-- The sort key `(x["status"] != "CONSENSUS_CONFIRMED", x["hash"])`, with
Python's `False < True` as `0 < 1`. -/
def statusFlag (ep : Epoch) : Nat :=
  if ep.status ≠ "CONSENSUS_CONFIRMED" then 1 else 0

/-- The deterministic output order: confirmed first, then by hash. -/
def epochLe (a b : Epoch) : Prop :=
  statusFlag a < statusFlag b ∨
    (statusFlag a = statusFlag b ∧ strLe a.hash b.hash)

instance : DecidableRel epochLe := fun a b =>
  inferInstanceAs (Decidable
    (statusFlag a < statusFlag b ∨
      (statusFlag a = statusFlag b ∧ strLe a.hash b.hash)))

/-- `compute_epochs`: group by hash, build one epoch per group, sort
confirmed-first then by ascending hash.  `minQuorum` defaults to 3 at every
call site; `today` is the ISO date string. -/
def computeEpochs (entries : List Entry) (minQuorum : Nat)
    (today : String) : List Epoch :=
  List.insertionSort epochLe
    ((groupByHrich entries).map (fun g => epochOfGroup today minQuorum g.1 g.2))

/-! ## The self-audit replayer (`src/src/bor_consensus/self_audit.py`)

`discover_bundles` walks the file system and `verify.verify_bundle_file`
lives in the missing `bor/verify.py`; modelled from the spec: discovery
yields a list of bundle paths, and verification recomputes a bundle's
commitments via the canonical rebuild path, returning a report dict whose
`ok` field says whether they match — raising on an unreadable or malformed
file.  Both are parameters here: `bundles` the discovered paths, `vf` the
verifier. -/

/-- The result of `replay_bundle`. -/
structure ReplayRes where
  ok : Bool
  reason : Option String
deriving DecidableEq

/-- `replay_bundle`: run the verifier, read `result.get("ok")` truthiness,
and catch any raise as a failure whose reason is the exception text. -/
def replayBundle (vf : String → Except String Json) (path : String) :
    ReplayRes :=
  match vf path with
  | Except.ok result =>
      let ok := jsonTruthy ((jsonGet result "ok").getD Json.null)
      { ok := ok, reason := if ok then none else some "verify_bundle_failed" }
  | Except.error e => { ok := false, reason := some e }

/-- One drift report entry: `{"bundle": b, "reason": r["reason"]}`. -/
structure DriftEntry where
  bundle : String
  reason : Option String
deriving DecidableEq

/-- The audit report of `audit_last_n`. -/
structure AuditReport where
  checked : Nat
  verified : Nat
  drift : List DriftEntry
  ok : Bool
deriving DecidableEq

/-- The `for b in bundles` loop of `audit_last_n`, accumulating the
verified count and the drift list. -/
def auditLoop (vf : String → Except String Json) :
    List String → Nat → List DriftEntry → Nat × List DriftEntry
  | [], verified, drift => (verified, drift)
  | b :: bs, verified, drift =>
      let r := replayBundle vf b
      if r.ok then auditLoop vf bs (verified + 1) drift
      else auditLoop vf bs verified (drift ++ [{ bundle := b, reason := r.reason }])

/-- `audit_last_n` over the discovered bundle paths. -/
def auditLastN (vf : String → Except String Json) (bundles : List String) :
    AuditReport :=
  let res := auditLoop vf bundles 0 []
  { checked := bundles.length, verified := res.1, drift := res.2
    ok := res.1 == bundles.length }

/-- Whether `needle` occurs at the start of `hay`. -/
def listLeads : List Char → List Char → Bool
  | [], _ => true
  | _ :: _, [] => false
  | a :: as, b :: bs => a == b && listLeads as bs

/-- Whether `needle` occurs as a contiguous run anywhere in `hay`. -/
def listOccurs (needle : List Char) : List Char → Bool
  | [] => listLeads needle []
  | b :: bs => listLeads needle (b :: bs) || listOccurs needle bs

/-- Whether one string occurs inside another — "the message names the
function" is `strOccurs name msg = true`. -/
def strOccurs (needle hay : String) : Bool :=
  listOccurs needle.data hay.data

/-! ## Digest-shape lemmas -/

theorem sha256_length (msg : List Nat) : (sha256 msg).length = 32 := by
  simp [sha256, be32]

theorem byteHex_flatten_length (l : List Nat) :
    ((l.map byteHex).flatten).length = 2 * l.length := by
  induction l with
  | nil => rfl
  | cons b bs ih =>
      simp only [List.map_cons, List.flatten_cons, List.length_append, ih,
        List.length_cons, byteHex, List.length_nil]
      omega

theorem sha256hex_length (msg : List Nat) : (sha256hex msg).length = 64 := by
  show (((sha256 msg).map byteHex).flatten).length = 64
  rw [byteHex_flatten_length, sha256_length]

theorem contentHash_length (v : Json) : (contentHash v).length = 64 :=
  sha256hex_length _

/-! ## Injectivity of the fingerprint aggregation string -/

/-- `joinBar` at the level of character lists. -/
def joinCh : List (List Char) → List Char
  | [] => []
  | [x] => x
  | x :: y :: r => x ++ '|' :: joinCh (y :: r)

theorem joinBar_data : ∀ l : List String,
    (joinBar l).data = joinCh (l.map String.data)
  | [] => rfl
  | [s] => rfl
  | s :: s' :: r => by
      show (s ++ "|" ++ joinBar (s' :: r)).data = _
      simp only [String.data_append, joinBar_data (s' :: r), List.map_cons,
        joinCh, List.append_assoc, List.singleton_append]

theorem joinCh_cons_shape (x : List Char) (r : List (List Char)) :
    ∃ t, joinCh (x :: r) = x ++ t := by
  cases r with
  | nil => exact ⟨[], (List.append_nil x).symm⟩
  | cons y r' => exact ⟨'|' :: joinCh (y :: r'), rfl⟩

theorem joinCh_inj : ∀ (L1 L2 : List (List Char)),
    (∀ x ∈ L1, x.length = 64) → (∀ x ∈ L2, x.length = 64) →
    joinCh L1 = joinCh L2 → L1 = L2 := by
  intro L1
  induction L1 with
  | nil =>
      intro L2 _ h2 he
      cases L2 with
      | nil => rfl
      | cons y r =>
          exfalso
          obtain ⟨t, ht⟩ := joinCh_cons_shape y r
          rw [show joinCh ([] : List (List Char)) = [] from rfl, ht] at he
          have hlen := congrArg List.length he
          have hy := h2 y (List.mem_cons_self y r)
          simp only [List.length_nil, List.length_append, hy] at hlen
          omega
  | cons x r1 ih =>
      intro L2 h1 h2 he
      cases L2 with
      | nil =>
          exfalso
          obtain ⟨t, ht⟩ := joinCh_cons_shape x r1
          rw [ht, show joinCh ([] : List (List Char)) = [] from rfl] at he
          have hlen := congrArg List.length he
          have hx := h1 x (List.mem_cons_self x r1)
          simp only [List.length_nil, List.length_append, hx] at hlen
          omega
      | cons y r2 =>
          have hx : x.length = 64 := h1 x (List.mem_cons_self x r1)
          have hy : y.length = 64 := h2 y (List.mem_cons_self y r2)
          cases r1 with
          | nil =>
              cases r2 with
              | nil =>
                  have : x = y := he
                  rw [this]
              | cons z r2' =>
                  exfalso
                  have he' : x = y ++ '|' :: joinCh (z :: r2') := he
                  have hlen := congrArg List.length he'
                  simp only [List.length_append, List.length_cons, hx, hy]
                    at hlen
                  omega
          | cons z r1' =>
              cases r2 with
              | nil =>
                  exfalso
                  have he' : x ++ '|' :: joinCh (z :: r1') = y := he
                  have hlen := congrArg List.length he'
                  simp only [List.length_append, List.length_cons, hx, hy]
                    at hlen
                  omega
              | cons w r2' =>
                  have he' : x ++ '|' :: joinCh (z :: r1') =
                      y ++ '|' :: joinCh (w :: r2') := he
                  obtain ⟨hxy, htail⟩ :=
                    List.append_inj he' (hx.trans hy.symm)
                  have htl : joinCh (z :: r1') = joinCh (w :: r2') :=
                    List.tail_eq_of_cons_eq htail
                  have hr := ih (w :: r2')
                    (fun u hu => h1 u (List.mem_cons_of_mem x hu))
                    (fun u hu => h2 u (List.mem_cons_of_mem y hu)) htl
                  rw [hxy, hr]

/-- Unequal lists of 64-character fingerprints feed unequal domain-tagged
aggregation strings to the master hash. -/
theorem joinP2_inj (l1 l2 : List String)
    (h1 : ∀ s ∈ l1, s.length = 64) (h2 : ∀ s ∈ l2, s.length = 64)
    (he : "P2|" ++ joinBar l1 = "P2|" ++ joinBar l2) : l1 = l2 := by
  have hd : ("P2|" ++ joinBar l1).data = ("P2|" ++ joinBar l2).data :=
    congrArg String.data he
  rw [String.data_append, String.data_append] at hd
  have hd' : (joinBar l1).data = (joinBar l2).data :=
    List.append_cancel_left hd
  rw [joinBar_data, joinBar_data] at hd'
  have hmap : l1.map String.data = l2.map String.data :=
    joinCh_inj _ _
      (by intro x hx
          obtain ⟨s, hs, rfl⟩ := List.mem_map.mp hx
          exact h1 s hs)
      (by intro x hx
          obtain ⟨s, hs, rfl⟩ := List.mem_map.mp hx
          exact h2 s hs)
      hd'
  have hinj : Function.Injective String.data := by
    intro a b hab
    cases a; cases b
    exact congrArg String.mk hab
  exact List.map_injective_iff.mpr hinj hmap

/-! ## Sorted permutations

Map iteration order is load-bearing for the hashing and ledger claims: what
makes the sorted folds order-insensitive is that two sorted lists that are
permutations of each other agree, as long as the order relation cannot hold
both ways between distinct members.  (Global antisymmetry is not available
for epoch records, whose relation compares only status and hash.) -/

theorem eq_of_perm_sorted_antisymmOn {α : Type} {r : α → α → Prop} :
    ∀ {l l' : List α}, List.Perm l l' → l.Sorted r → l'.Sorted r →
      (∀ a ∈ l, ∀ b ∈ l', r a b → r b a → a = b) → l = l' := by
  intro l
  induction l with
  | nil =>
      intro l' hp _ _ _
      exact hp.symm.eq_nil.symm
  | cons a t ih =>
      intro l' hp hs hs' hanti
      cases l' with
      | nil =>
          have := hp.eq_nil
          simp at this
      | cons b t' =>
          have hab : a = b := by
            by_cases hcase : a = b
            · exact hcase
            · have hain : a ∈ b :: t' := hp.subset (List.mem_cons_self a t)
              have hbin : b ∈ a :: t := hp.symm.subset (List.mem_cons_self b t')
              have ha' : a ∈ t' := by
                rcases List.mem_cons.mp hain with h | h
                · exact absurd h hcase
                · exact h
              have hb' : b ∈ t := by
                rcases List.mem_cons.mp hbin with h | h
                · exact absurd h.symm hcase
                · exact h
              have hrab : r a b := (List.sorted_cons.mp hs).1 b hb'
              have hrba : r b a := (List.sorted_cons.mp hs').1 a ha'
              exact hanti a (List.mem_cons_self a t) b
                (List.mem_cons_self b t') hrab hrba
          subst hab
          have ht : List.Perm t t' := hp.cons_inv
          have htt := ih ht (List.sorted_cons.mp hs).2
            (List.sorted_cons.mp hs').2
            (fun x hx y hy => hanti x (List.mem_cons_of_mem a hx) y
              (List.mem_cons_of_mem a hy))
          rw [htt]

/-- `sorted(set(...))` is invariant under permutation of its input. -/
theorem sortedDistinct_perm {l l' : List String} (hp : List.Perm l l') :
    sortedDistinct l = sortedDistinct l' := by
  apply eq_of_perm_sorted_antisymmOn (r := strLe)
  · exact ((List.perm_insertionSort _ _).trans hp.dedup).trans
      (List.perm_insertionSort _ _).symm
  · exact List.sorted_insertionSort _ _
  · exact List.sorted_insertionSort _ _
  · intro a _ b _ hab hba
    exact strLe_antisymm hab hba

instance : IsTotal Epoch epochLe := by
  constructor
  intro a b
  unfold epochLe
  rcases Nat.lt_trichotomy (statusFlag a) (statusFlag b) with h | h | h
  · exact Or.inl (Or.inl h)
  · rcases strLe_total a.hash b.hash with h' | h'
    · exact Or.inl (Or.inr ⟨h, h'⟩)
    · exact Or.inr (Or.inr ⟨h.symm, h'⟩)
  · exact Or.inr (Or.inl h)

instance : IsTrans Epoch epochLe := by
  constructor
  intro a b c hab hbc
  unfold epochLe at *
  rcases hab with h1 | ⟨h1, h1'⟩ <;> rcases hbc with h2 | ⟨h2, h2'⟩
  · exact Or.inl (h1.trans h2)
  · exact Or.inl (h2 ▸ h1)
  · exact Or.inl (h1 ▸ h2)
  · exact Or.inr ⟨h1.trans h2, strLe_trans h1' h2'⟩

/-! ## Substring occurrence -/

theorem listLeads_refl_append (n t : List Char) :
    listLeads n (n ++ t) = true := by
  induction n with
  | nil => rfl
  | cons a as ih => simp [listLeads, ih]

theorem listOccurs_append (n pre t : List Char) :
    listOccurs n (pre ++ n ++ t) = true := by
  induction pre with
  | nil =>
      show listOccurs n (n ++ t) = true
      cases hnt : n ++ t with
      | nil =>
          have hn : n = [] := by
            cases n with
            | nil => rfl
            | cons a as => simp at hnt
          subst hn
          rfl
      | cons c cs =>
          show (listLeads n (c :: cs) || listOccurs n cs) = true
          rw [← hnt, listLeads_refl_append]
          rfl
  | cons p ps ih =>
      show (listLeads n (p :: (ps ++ n ++ t)) ||
        listOccurs n (ps ++ n ++ t)) = true
      rw [ih, Bool.or_true]

/-- A string occurs in any string of which it is an infix. -/
theorem strOccurs_append (needle pre suf : String) :
    strOccurs needle (pre ++ needle ++ suf) = true := by
  show listOccurs needle.data (pre ++ needle ++ suf).data = true
  rw [String.data_append, String.data_append]
  exact listOccurs_append _ _ _

/-! ## Grouping lemmas for the consensus ledger -/

/-- The entry list stored in a group list under key `k` (`by[h]`). -/
def lkup (g : List (String × List Entry)) (k : String) : List Entry :=
  ((g.find? (fun kv => kv.1 == k)).map Prod.snd).getD []

/-- The keys of a group list, in iteration order. -/
def groupKeys (g : List (String × List Entry)) : List String :=
  g.map Prod.fst

/-- One `defaultdict` update step of `group_by_hrich`. -/
def groupStep (acc : List (String × List Entry)) (e : Entry) :
    List (String × List Entry) :=
  match entryHash e with
  | none => acc
  | some h => insertGroup acc h e

theorem groupByHrich_eq_fold (entries : List Entry) :
    groupByHrich entries = entries.foldl groupStep [] := by
  unfold groupByHrich
  congr 1

theorem lkup_insertGroup (acc : List (String × List Entry)) (h : String)
    (e : Entry) (k : String) :
    lkup (insertGroup acc h e) k =
      if k = h then lkup acc k ++ [e] else lkup acc k := by
  induction acc with
  | nil =>
      by_cases hk : k = h
      · subst hk
        simp [insertGroup, lkup, List.find?]
      · have : (h == k) = false := by
          simp [Ne.symm hk]
        simp [insertGroup, lkup, List.find?, this, hk]
  | cons p rest ih =>
      obtain ⟨k', v'⟩ := p
      by_cases hk' : k' = h
      · subst hk'
        by_cases hk : k = k'
        · subst hk
          simp [insertGroup, lkup, List.find?]
        · have hne : (k' == k) = false := by simp [Ne.symm hk]
          simp [insertGroup, lkup, List.find?, hne, hk]
      · rw [show insertGroup ((k', v') :: rest) h e =
            (k', v') :: insertGroup rest h e by simp [insertGroup, hk']]
        by_cases hk : k = k'
        · subst hk
          have hkh : ¬(k = h) := fun hc => hk' hc
          simp [lkup, List.find?, hkh]
        · have hne : (k' == k) = false := by simp [Ne.symm hk]
          have l1 : lkup ((k', v') :: insertGroup rest h e) k =
              lkup (insertGroup rest h e) k := by
            simp [lkup, List.find?, hne]
          have l2 : lkup ((k', v') :: rest) k = lkup rest k := by
            simp [lkup, List.find?, hne]
          rw [l1, l2, ih]

theorem lkup_fold (es : List Entry) :
    ∀ (acc : List (String × List Entry)) (k : String),
      lkup (es.foldl groupStep acc) k =
        lkup acc k ++ es.filter (fun e => entryHash e == some k) := by
  induction es with
  | nil => intro acc k; simp
  | cons e es ih =>
      intro acc k
      rw [List.foldl_cons, ih]
      cases he : entryHash e with
      | none =>
          have hstep : groupStep acc e = acc := by simp [groupStep, he]
          have hfe : (entryHash e == some k) = false := by simp [he]
          rw [hstep, List.filter_cons, hfe]
          simp
      | some h =>
          have hstep : groupStep acc e = insertGroup acc h e := by
            simp [groupStep, he]
          rw [hstep, lkup_insertGroup, List.filter_cons]
          by_cases hk : k = h
          · subst hk
            have : (entryHash e == some k) = true := by simp [he]
            rw [if_pos rfl, this]
            simp
          · have : (entryHash e == some k) = false := by
              simp [he, Ne.symm hk]
            rw [if_neg hk, this]
            simp

/-- Each group of `group_by_hrich` holds exactly the entries carrying its
hash, in registry order. -/
theorem groupByHrich_lkup (entries : List Entry) (k : String) :
    lkup (groupByHrich entries) k =
      entries.filter (fun e => entryHash e == some k) := by
  rw [groupByHrich_eq_fold, lkup_fold]
  rfl

theorem groupKeys_insertGroup (acc : List (String × List Entry))
    (h : String) (e : Entry) :
    groupKeys (insertGroup acc h e) =
      if h ∈ groupKeys acc then groupKeys acc else groupKeys acc ++ [h] := by
  induction acc with
  | nil => simp [insertGroup, groupKeys]
  | cons p rest ih =>
      obtain ⟨k', v'⟩ := p
      by_cases hk' : k' = h
      · subst hk'
        simp [insertGroup, groupKeys]
      · have hstep : insertGroup ((k', v') :: rest) h e =
            (k', v') :: insertGroup rest h e := by simp [insertGroup, hk']
        unfold groupKeys at ih ⊢
        rw [hstep]
        by_cases hin : h ∈ rest.map Prod.fst
        · simp [ih, hin, List.mem_cons]
        · simp [ih, hin, List.mem_cons, Ne.symm hk']

theorem groupKeys_insertGroup_nodup (acc : List (String × List Entry))
    (h : String) (e : Entry) (hnd : (groupKeys acc).Nodup) :
    (groupKeys (insertGroup acc h e)).Nodup := by
  rw [groupKeys_insertGroup]
  by_cases hin : h ∈ groupKeys acc
  · simpa [hin] using hnd
  · simp only [hin, if_false]
    simpa [List.nodup_append] using ⟨hnd, hin⟩

theorem mem_groupKeys_insertGroup (acc : List (String × List Entry))
    (h : String) (e : Entry) (k : String) :
    k ∈ groupKeys (insertGroup acc h e) ↔ k ∈ groupKeys acc ∨ k = h := by
  rw [groupKeys_insertGroup]
  by_cases hin : h ∈ groupKeys acc
  · simp only [hin, if_true]
    constructor
    · exact fun hk => Or.inl hk
    · rintro (hk | rfl)
      · exact hk
      · exact hin
  · simp [hin]

theorem groupKeys_fold_nodup (es : List Entry) :
    ∀ acc : List (String × List Entry), (groupKeys acc).Nodup →
      (groupKeys (es.foldl groupStep acc)).Nodup := by
  induction es with
  | nil => intro acc hnd; exact hnd
  | cons e es ih =>
      intro acc hnd
      rw [List.foldl_cons]
      apply ih
      cases he : entryHash e with
      | none => simpa [groupStep, he] using hnd
      | some h =>
          rw [show groupStep acc e = insertGroup acc h e by
            simp [groupStep, he]]
          exact groupKeys_insertGroup_nodup acc h e hnd

theorem groupByHrich_keys_nodup (entries : List Entry) :
    (groupKeys (groupByHrich entries)).Nodup := by
  rw [groupByHrich_eq_fold]
  exact groupKeys_fold_nodup entries [] (by simp [groupKeys])

theorem mem_groupKeys_fold (es : List Entry) :
    ∀ (acc : List (String × List Entry)) (k : String),
      k ∈ groupKeys (es.foldl groupStep acc) ↔
        k ∈ groupKeys acc ∨ ∃ e ∈ es, entryHash e = some k := by
  induction es with
  | nil => intro acc k; simp
  | cons e es ih =>
      intro acc k
      rw [List.foldl_cons, ih]
      cases he : entryHash e with
      | none =>
          have : groupStep acc e = acc := by simp [groupStep, he]
          rw [this]
          constructor
          · rintro (hk | hk)
            · exact Or.inl hk
            · exact Or.inr (by
                obtain ⟨e', he', hh⟩ := hk
                exact ⟨e', List.mem_cons_of_mem e he', hh⟩)
          · rintro (hk | ⟨e', he', hh⟩)
            · exact Or.inl hk
            · rcases List.mem_cons.mp he' with rfl | he''
              · rw [he] at hh; exact absurd hh (by simp)
              · exact Or.inr ⟨e', he'', hh⟩
      | some h =>
          rw [show groupStep acc e = insertGroup acc h e by
            simp [groupStep, he]]
          rw [mem_groupKeys_insertGroup]
          constructor
          · rintro ((hk | rfl) | hk)
            · exact Or.inl hk
            · exact Or.inr ⟨e, List.mem_cons_self e es, he⟩
            · obtain ⟨e', he', hh⟩ := hk
              exact Or.inr ⟨e', List.mem_cons_of_mem e he', hh⟩
          · rintro (hk | ⟨e', he', hh⟩)
            · exact Or.inl (Or.inl hk)
            · rcases List.mem_cons.mp he' with rfl | he''
              · rw [he] at hh
                exact Or.inl (Or.inr (Option.some_inj.mp hh).symm)
              · exact Or.inr ⟨e', he'', hh⟩

/-- A hash is a group key exactly when some entry carries it. -/
theorem mem_groupByHrich_keys (entries : List Entry) (k : String) :
    k ∈ groupKeys (groupByHrich entries) ↔
      ∃ e ∈ entries, entryHash e = some k := by
  rw [groupByHrich_eq_fold, mem_groupKeys_fold]
  simp [groupKeys]

/-- With nodup keys, a member pair's value is its `lkup`. -/
theorem lkup_eq_of_mem (g : List (String × List Entry))
    (hnd : (groupKeys g).Nodup) (k : String) (vl : List Entry)
    (hmem : (k, vl) ∈ g) : lkup g k = vl := by
  induction g with
  | nil => simp at hmem
  | cons p rest ih =>
      obtain ⟨k', v'⟩ := p
      rcases List.mem_cons.mp hmem with heq | htail
      · obtain ⟨rfl, rfl⟩ := Prod.mk.injEq .. ▸ heq
        · simp [lkup, List.find?]
      · by_cases hk : k' = k
        · exfalso
          subst hk
          have : k' ∈ groupKeys rest :=
            List.mem_map.mpr ⟨(k', vl), htail, rfl⟩
          exact (List.nodup_cons.mp hnd).1 this
        · have hne : (k' == k) = false := by simp [hk]
          have : lkup ((k', v') :: rest) k = lkup rest k := by
            simp [lkup, List.find?, hne]
          rw [this]
          exact ih (List.nodup_cons.mp hnd).2 htail

/-- `compute_epochs` in closed form: one epoch per distinct hash, built
from the entries filtered to that hash, sorted confirmed-first then by
ascending hash. -/
theorem computeEpochs_eq (entries : List Entry) (q : Nat) (today : String) :
    computeEpochs entries q today =
      List.insertionSort epochLe
        ((groupKeys (groupByHrich entries)).map
          (fun k => epochOfGroup today q k
            (entries.filter (fun e => entryHash e == some k)))) := by
  unfold computeEpochs
  congr 1
  rw [show groupKeys (groupByHrich entries) =
      (groupByHrich entries).map Prod.fst from rfl, List.map_map]
  apply List.map_congr_left
  intro p hp
  obtain ⟨k, vl⟩ := p
  have : lkup (groupByHrich entries) k = vl :=
    lkup_eq_of_mem _ (groupByHrich_keys_nodup entries) k vl hp
  rw [Function.comp_apply]
  rw [← groupByHrich_lkup, this]

/-- The epoch built for a hash depends on the entry list only through the
multiset of entries carrying that hash. -/
theorem epochOfGroup_perm (entries entries' : List Entry) (q : Nat)
    (today : String) (hp : List.Perm entries entries') (k : String) :
    epochOfGroup today q k
        (entries.filter (fun e => entryHash e == some k)) =
      epochOfGroup today q k
        (entries'.filter (fun e => entryHash e == some k)) := by
  have husers : sortedDistinct
      ((entries.filter (fun e => entryHash e == some k)).map userOf) =
      sortedDistinct
      ((entries'.filter (fun e => entryHash e == some k)).map userOf) :=
    sortedDistinct_perm (List.Perm.map _ (hp.filter _))
  simp only [epochOfGroup, husers]

/-- The ledger output is sorted: confirmed epochs first, then pending, ties
broken by ascending commitment hash. -/
theorem computeEpochs_sorted (entries : List Entry) (q : Nat)
    (today : String) : List.Sorted epochLe (computeEpochs entries q today) :=
  List.sorted_insertionSort _ _

/-- `compute_epochs` yields the same epoch list for any permutation of the
registry entries. -/
theorem computeEpochs_perm_inv (entries entries' : List Entry) (q : Nat)
    (today : String) (hp : List.Perm entries entries') :
    computeEpochs entries q today = computeEpochs entries' q today := by
  have hGk := epochOfGroup_perm entries entries' q today hp
  have hnd := groupByHrich_keys_nodup entries
  have hnd' := groupByHrich_keys_nodup entries'
  have hkperm : List.Perm (groupKeys (groupByHrich entries))
      (groupKeys (groupByHrich entries')) := by
    rw [List.perm_ext_iff_of_nodup hnd hnd']
    intro k
    rw [mem_groupByHrich_keys, mem_groupByHrich_keys]
    constructor
    · rintro ⟨e, he, hh⟩; exact ⟨e, hp.subset he, hh⟩
    · rintro ⟨e, he, hh⟩; exact ⟨e, hp.symm.subset he, hh⟩
  rw [computeEpochs_eq, computeEpochs_eq]
  apply eq_of_perm_sorted_antisymmOn (r := epochLe)
  · refine (List.perm_insertionSort _ _).trans
      (List.Perm.trans ?_ (List.perm_insertionSort _ _).symm)
    refine List.Perm.trans (hkperm.map _) ?_
    rw [List.map_congr_left (fun k _ => hGk k)]
  · exact List.sorted_insertionSort _ _
  · exact List.sorted_insertionSort _ _
  · intro a ha b hb hab hba
    have ha' := (List.perm_insertionSort epochLe _).subset ha
    have hb' := (List.perm_insertionSort epochLe _).subset hb
    obtain ⟨ka, _, rfl⟩ := List.mem_map.mp ha'
    obtain ⟨kb, _, rfl⟩ := List.mem_map.mp hb'
    have hkk : ka = kb := by
      rcases hab with hlt | ⟨heq, hle⟩ <;> rcases hba with hlt' | ⟨heq', hle'⟩
      · exact absurd hlt' (Nat.lt_asymm hlt)
      · exact absurd hlt (by rw [heq']; exact Nat.lt_irrefl _)
      · exact absurd hlt' (by rw [heq]; exact Nat.lt_irrefl _)
      · exact strLe_antisymm hle hle'
    rw [hGk ka, hkk]

/-! ## Encoder lemmas -/

instance : IsTotal (String × String) pairKeyLe :=
  ⟨fun a b => strLe_total a.1 b.1⟩

instance : IsTrans (String × String) pairKeyLe :=
  ⟨fun _ _ _ hab hbc => strLe_trans hab hbc⟩

theorem dumpsFields_eq_map : ∀ fs : List (String × Json),
    dumpsFields fs = fs.map (fun kv => (kv.1, dumps kv.2))
  | [] => rfl
  | (k, v) :: fs => by
      show (k, dumps v) :: dumpsFields fs = _
      rw [dumpsFields_eq_map fs]
      rfl

theorem eq_of_mem_nodup_keys {β : Type} :
    ∀ (l : List (String × β)), (l.map Prod.fst).Nodup →
      ∀ kv ∈ l, ∀ kv' ∈ l, kv.1 = kv'.1 → kv = kv' := by
  intro l
  induction l with
  | nil => intro _ kv h; simp at h
  | cons p rest ih =>
      intro hnd kv hkv kv' hkv' hkey
      rcases List.mem_cons.mp hkv with rfl | htl
      · rcases List.mem_cons.mp hkv' with rfl | htl'
        · rfl
        · exfalso
          have : kv.1 ∈ rest.map Prod.fst :=
            List.mem_map.mpr ⟨kv', htl', hkey.symm⟩
          exact (List.nodup_cons.mp (by simpa using hnd)).1 this
      · rcases List.mem_cons.mp hkv' with rfl | htl'
        · exfalso
          have : kv'.1 ∈ rest.map Prod.fst :=
            List.mem_map.mpr ⟨kv, htl, hkey⟩
          exact (List.nodup_cons.mp (by simpa using hnd)).1 this
        · exact ih (List.nodup_cons.mp (by simpa using hnd)).2 kv htl kv' htl'
            hkey

/-- The sorted-keys serialisation of an object is invariant under
permutation of its (unique-keyed) fields — the same logical dictionary
always encodes identically. -/
theorem sortPairs_perm_inv (fields fields' : List (String × Json))
    (hp : List.Perm fields fields') (hnd : (fields.map Prod.fst).Nodup) :
    sortPairs (dumpsFields fields) = sortPairs (dumpsFields fields') := by
  rw [dumpsFields_eq_map, dumpsFields_eq_map]
  apply eq_of_perm_sorted_antisymmOn (r := pairKeyLe)
  · exact ((List.perm_insertionSort _ _).trans (hp.map _)).trans
      (List.perm_insertionSort _ _).symm
  · exact List.sorted_insertionSort _ _
  · exact List.sorted_insertionSort _ _
  · intro a ha b hb hab hba
    have ha' := (List.perm_insertionSort pairKeyLe _).subset ha
    have hb' := (List.perm_insertionSort pairKeyLe _).subset hb
    obtain ⟨kv, hkv, rfl⟩ := List.mem_map.mp ha'
    obtain ⟨kv', hkv', rfl⟩ := List.mem_map.mp hb'
    have hkey : kv.1 = kv'.1 := strLe_antisymm hab hba
    have : kv = kv' :=
      eq_of_mem_nodup_keys _ hnd kv hkv kv' (hp.symm.subset hkv') hkey
    rw [this]

theorem dumps_obj_perm_inv (fields fields' : List (String × Json))
    (hp : List.Perm fields fields') (hnd : (fields.map Prod.fst).Nodup) :
    dumps (Json.obj fields) = dumps (Json.obj fields') := by
  show "\x7b" ++ _ ++ "\x7d" = "\x7b" ++ _ ++ "\x7d"
  rw [sortPairs_perm_inv fields fields' hp hnd]

/-- Character-list form of the UTF-8 encoder. -/
def utf8OfChars (l : List Char) : List Nat :=
  (l.map (fun c => utf8Cp c.toNat)).flatten

theorem utf8Bytes_eq_ofChars (s : String) : utf8Bytes s = utf8OfChars s.data :=
  rfl

theorem utf8OfChars_append (l1 l2 : List Char) :
    utf8OfChars (l1 ++ l2) = utf8OfChars l1 ++ utf8OfChars l2 := by
  unfold utf8OfChars
  rw [List.map_append, List.flatten_append]

theorem flatten_map_singleton (l : List Char) :
    (l.map (fun c => [c])).flatten = l := by
  induction l with
  | nil => rfl
  | cons c cs ih => simp [ih]

/-! ## Audit-loop characterisation -/

theorem auditLoop_spec (vf : String → Except String Json) :
    ∀ (bundles : List String) (verified : Nat) (drift : List DriftEntry),
      auditLoop vf bundles verified drift =
        (verified +
          (bundles.filter (fun b => (replayBundle vf b).ok)).length,
         drift ++ (bundles.filter (fun b => !(replayBundle vf b).ok)).map
           (fun b => { bundle := b, reason := (replayBundle vf b).reason })) := by
  intro bundles
  induction bundles with
  | nil => intro verified drift; simp [auditLoop]
  | cons b bs ih =>
      intro verified drift
      cases hok : (replayBundle vf b).ok with
      | true =>
          rw [show auditLoop vf (b :: bs) verified drift =
              auditLoop vf bs (verified + 1) drift by
            simp [auditLoop, hok]]
          rw [ih, List.filter_cons, List.filter_cons]
          simp only [hok, Bool.not_true, Bool.false_eq_true, if_true,
            if_false, List.length_cons, Prod.mk.injEq]
          exact ⟨by omega, trivial⟩
      | false =>
          rw [show auditLoop vf (b :: bs) verified drift =
              auditLoop vf bs verified
                (drift ++ [{ bundle := b,
                             reason := (replayBundle vf b).reason }]) by
            simp [auditLoop, hok]]
          rw [ih, List.filter_cons, List.filter_cons]
          simp only [hok, Bool.not_false, Bool.false_eq_true, if_true,
            if_false, List.map_cons, List.append_assoc,
            List.singleton_append, Prod.mk.injEq]

/-! ## Concrete instances used by the witnesses -/

/-- A trivial sub-proof suite: every check returns `null`. -/
def trivSuite : SubproofSuite :=
  { runDIP := fun _ _ _ _ => Json.null
    runDP := fun _ _ _ _ _ => Json.null
    runPEP := (true, Json.null)
    runPoPI := fun _ => Json.null
    runCCP := fun _ _ _ _ => Json.null
    runCMIP := fun _ _ _ _ => Json.null
    runPP := fun _ _ _ _ => Json.null
    runTRP := fun _ _ _ _ => Json.null }

/-- A step function that raises. -/
def raisingFn : StepFn :=
  { name := "exploder", borStepName := none, isCallable := true
    run := fun _ _ _ => Except.error "boom" }

/-- An object that is not callable; Python still knows a name for it. -/
def nonCallableFn : StepFn :=
  { name := "foo", borStepName := none, isCallable := false
    run := fun s _ _ => Except.ok s }

/-- The identity step. -/
def idFn : StepFn :=
  { name := "ident", borStepName := none, isCallable := true
    run := fun s _ _ => Except.ok s }

/-- A bundle verifier for the audit witness: `b.json` is malformed and
raises, everything else verifies. -/
def vfW : String → Except String Json := fun p =>
  if p == "b.json" then Except.error "boom"
  else Except.ok (Json.obj [("ok", Json.bool true)])

/-! ## The claims -/

/-- C1: two runs over identical initial state, configuration, version and
step-function sequence (with the same environment fingerprint and the same
pure sub-proof routines, but arbitrary generation timestamps) produce
bit-identical master commitments from `finalize` and bit-identical `H_RICH`
values from `build_bundle`. -/
theorem C1_run_determinism :
    (∀ (S0 C : Json) (V : String) (env : Json) (stages : List StepFn)
        (r r' : BoRRun),
        runStepList (BoRRun.init S0 C V env) stages = Except.ok r →
        runStepList (BoRRun.init S0 C V env) stages = Except.ok r' →
        (finalize r).2.master = (finalize r').2.master)
    ∧ (∀ (sp : SubproofSuite) (S0 C : Json) (V : String)
        (stages : List StepFn) (env : Json) (t1 t2 : String)
        (b1 b2 : Bundle),
        buildBundle sp S0 C V stages env t1 = Except.ok b1 →
        buildBundle sp S0 C V stages env t2 = Except.ok b2 →
        b1.H_MASTER = b2.H_MASTER ∧ b1.H_RICH = b2.H_RICH) := by
  constructor
  · intro S0 C V env stages r r' h1 h2
    rw [h1] at h2
    cases h2
    rfl
  · intro sp S0 C V stages env t1 t2 b1 b2 h1 h2
    unfold buildBundle at h1 h2
    cases hprim : buildPrimary S0 C V stages env with
    | error e => rw [hprim] at h1; cases h1
    | ok primary =>
        rw [hprim] at h1 h2
        cases h1
        cases h2
        exact ⟨rfl, rfl⟩

/-- Witness for C1 at a concrete run (empty stage list, trivial suite,
distinct timestamps). -/
theorem C1_run_determinism_witness :
    ((finalize ((BoRRun.init (Json.num 7) (Json.obj []) "v1"
        Json.null))).2.master =
      (finalize ((BoRRun.init (Json.num 7) (Json.obj []) "v1"
        Json.null))).2.master)
    ∧ ∃ b1 b2 : Bundle,
        buildBundle trivSuite (Json.num 7) (Json.obj []) "v1" [] Json.null
          "t1" = Except.ok b1
        ∧ buildBundle trivSuite (Json.num 7) (Json.obj []) "v1" [] Json.null
          "t2" = Except.ok b2
        ∧ b1.H_MASTER = b2.H_MASTER ∧ b1.H_RICH = b2.H_RICH := by
  constructor
  · exact C1_run_determinism.1 (Json.num 7) (Json.obj []) "v1" Json.null []
      _ _ rfl rfl
  · refine ⟨_, _, rfl, rfl, ?_⟩
    exact C1_run_determinism.2 trivSuite (Json.num 7) (Json.obj []) "v1" []
      Json.null "t1" "t2" _ _ rfl rfl

/-- C2: the master commitment is the content hash of `"P2|"` followed by
the step fingerprints joined with `"|"` in call order; fingerprints are
64-character digests, and on such lists the aggregation string determines
the fingerprint sequence, so a changed fingerprint order changes the string
fed to the hash. -/
theorem C2_master_commitment :
    (∀ r : BoRRun, (finalize r).2.master =
        contentHash (Json.str ("P2|" ++ joinBar (stageHashesOf r))))
    ∧ (∀ v : Json, (contentHash v).length = 64)
    ∧ (∀ l1 l2 : List String, (∀ s ∈ l1, s.length = 64) →
        (∀ s ∈ l2, s.length = 64) → l1 ≠ l2 →
        "P2|" ++ joinBar l1 ≠ "P2|" ++ joinBar l2) := by
  refine ⟨fun r => rfl, contentHash_length, ?_⟩
  intro l1 l2 h1 h2 hne he
  exact hne (joinP2_inj l1 l2 h1 h2 he)

/-- Witness for C2 at two concrete unequal fingerprint lists. -/
theorem C2_master_commitment_witness :
    "P2|" ++ joinBar
        ["aaaaaaaaaaaaaaaaaaaaaaaaaaaaaaaaaaaaaaaaaaaaaaaaaaaaaaaaaaaaaaaa",
         "bbbbbbbbbbbbbbbbbbbbbbbbbbbbbbbbbbbbbbbbbbbbbbbbbbbbbbbbbbbbbbbb"] ≠
      "P2|" ++ joinBar
        ["bbbbbbbbbbbbbbbbbbbbbbbbbbbbbbbbbbbbbbbbbbbbbbbbbbbbbbbbbbbbbbbb",
         "aaaaaaaaaaaaaaaaaaaaaaaaaaaaaaaaaaaaaaaaaaaaaaaaaaaaaaaaaaaaaaaa"] :=
  C2_master_commitment.2.2 _ _ (by decide) (by decide) (by decide)

/-- C3: a step's fingerprint is the content hash of exactly
`{fn, input, config, version}`; the output state is recorded in the step
but is no input to the fingerprint, so records differing only in output
state have equal fingerprints; and `add_step` appends exactly one record
carrying that fingerprint and the produced output. -/
theorem C3_fingerprint_excludes_output :
    (∀ s : BoRStep, s.computeFp = contentHash (Json.obj
        [("fn", Json.str s.fnName), ("input", s.inputState),
         ("config", s.config), ("version", Json.str s.codeVersion)]))
    ∧ (∀ (fn : String) (input out out' cfg : Json) (ver fp fp' : String),
        (BoRStep.mk fn input out cfg ver fp).computeFp =
          (BoRStep.mk fn input out' cfg ver fp').computeFp)
    ∧ (∀ (r : BoRRun) (fn : StepFn) (out : Json),
        fn.isCallable = true →
        fn.run (prevStateOf r) r.C r.V = Except.ok out →
        addStep r fn = Except.ok
          { r with steps := r.steps ++ [stepRecordOf r fn out]
                   finalStateOpt := some out }
        ∧ (stepRecordOf r fn out).outputState = out
        ∧ (stepRecordOf r fn out).fingerprint =
            (stepRecordOf r fn out).computeFp) := by
  refine ⟨fun s => rfl, fun fn input out out' cfg ver fp fp' => rfl, ?_⟩
  intro r fn out hc hrun
  refine ⟨?_, rfl, rfl⟩
  simp [addStep, hc, hrun]

/-- Witness for C3 at a concrete successful step. -/
theorem C3_fingerprint_excludes_output_witness :
    addStep (BoRRun.init (Json.num 7) (Json.obj []) "v1" Json.null) idFn =
      Except.ok
        { BoRRun.init (Json.num 7) (Json.obj []) "v1" Json.null with
          steps := (BoRRun.init (Json.num 7) (Json.obj []) "v1"
            Json.null).steps ++
            [stepRecordOf (BoRRun.init (Json.num 7) (Json.obj []) "v1"
              Json.null) idFn (Json.num 7)]
          finalStateOpt := some (Json.num 7) } :=
  (C3_fingerprint_excludes_output.2.2
    (BoRRun.init (Json.num 7) (Json.obj []) "v1" Json.null) idFn
    (Json.num 7) rfl rfl).1

theorem dumpsAsciiFields_eq_map : ∀ fs : List (String × Json),
    dumpsAsciiFields fs = fs.map (fun kv => (kv.1, dumpsAscii kv.2))
  | [] => rfl
  | (k, v) :: fs => by
      show (k, dumpsAscii v) :: dumpsAsciiFields fs = _
      rw [dumpsAsciiFields_eq_map fs]
      rfl

/-- The `ensure_ascii=True` serialisation is likewise invariant under
permutation of an object's (unique-keyed) fields. -/
theorem sortPairsAscii_perm_inv (fields fields' : List (String × Json))
    (hp : List.Perm fields fields') (hnd : (fields.map Prod.fst).Nodup) :
    sortPairs (dumpsAsciiFields fields) =
      sortPairs (dumpsAsciiFields fields') := by
  rw [dumpsAsciiFields_eq_map, dumpsAsciiFields_eq_map]
  apply eq_of_perm_sorted_antisymmOn (r := pairKeyLe)
  · exact ((List.perm_insertionSort _ _).trans (hp.map _)).trans
      (List.perm_insertionSort _ _).symm
  · exact List.sorted_insertionSort _ _
  · exact List.sorted_insertionSort _ _
  · intro a ha b hb hab hba
    have ha' := (List.perm_insertionSort pairKeyLe _).subset ha
    have hb' := (List.perm_insertionSort pairKeyLe _).subset hb
    obtain ⟨kv, hkv, rfl⟩ := List.mem_map.mp ha'
    obtain ⟨kv', hkv', rfl⟩ := List.mem_map.mp hb'
    have hkey : kv.1 = kv'.1 := strLe_antisymm hab hba
    have : kv = kv' :=
      eq_of_mem_nodup_keys _ hnd kv hkv kv' (hp.symm.subset hkv') hkey
    rw [this]

theorem dumpsAscii_obj_perm_inv (fields fields' : List (String × Json))
    (hp : List.Perm fields fields') (hnd : (fields.map Prod.fst).Nodup) :
    dumpsAscii (Json.obj fields) = dumpsAscii (Json.obj fields') := by
  show "\x7b" ++ _ ++ "\x7d" = "\x7b" ++ _ ++ "\x7d"
  rw [sortPairsAscii_perm_inv fields fields' hp hnd]

theorem hexChar_toNat_lt {n : Nat} (h : n < 16) : (hexChar n).toNat < 0x80 := by
  interval_cases n <;> decide

/-- C4 counterexample: the claim is false of the per-sub-proof hashing.
`h_sub` serialises `"é"` with Python's default `ensure_ascii=True`, so the
bytes it hashes are the all-ASCII escape `"\u00e9"` — not the UTF-8 bytes
`[195, 169]` the canonical encoder would have preserved. -/
theorem C4_counterexample :
    dumpsAscii (Json.str "é") = "\"\\u00e9\""
    ∧ hSub (Json.str "é") = sha256hex (utf8Bytes "\"\\u00e9\"")
    ∧ (∀ b ∈ utf8Bytes (dumpsAscii (Json.str "é")), b < 0x80)
    ∧ utf8Bytes (dumps (Json.str "é")) = [34, 195, 169, 34]
    ∧ utf8Bytes (dumpsAscii (Json.str "é")) ≠
        utf8Bytes (dumps (Json.str "é")) := by
  have h1 : dumpsAscii (Json.str "é") = "\"\\u00e9\"" := by decide
  refine ⟨h1, ?_, ?_, by decide, ?_⟩
  · show sha256hex (utf8Bytes (dumpsAscii (Json.str "é"))) = _
    rw [h1]
  · rw [h1]; decide
  · rw [h1]; decide

/-- C4 as amended: the canonical encoder (`djson`'s `ensure_ascii=False`
serialisation, the spec's Canonical Encoder) passes non-ASCII characters
through verbatim, so they land in its hash input as their own UTF-8 bytes;
the per-sub-proof hashing `h_sub` in `build_bundle` instead uses Python's
default `ensure_ascii=True` and escapes every non-ASCII character to an
all-ASCII `\uXXXX` sequence before hashing.  Under either encoder, sorted
keys make the bytes of the same logical value identical regardless of
field construction order. -/
theorem C4_encoder_non_ascii_amended :
    (∀ c : Char, 0x80 ≤ c.toNat → escapeChar c = [c])
    ∧ (∀ s : String, (∀ c ∈ s.data, 0x20 ≤ c.toNat ∧ c ≠ '"' ∧ c ≠ '\\') →
        utf8Bytes (dumps (Json.str s)) =
          utf8Bytes "\"" ++ utf8Bytes s ++ utf8Bytes "\"")
    ∧ (∀ c : Char, 0x80 ≤ c.toNat → c.toNat < 0x10000 →
        escapeCharAscii c = '\\' :: 'u' :: hexQuad c.toNat
        ∧ ∀ x ∈ escapeCharAscii c, x.toNat < 0x80)
    ∧ (∀ fields fields' : List (String × Json),
        List.Perm fields fields' → (fields.map Prod.fst).Nodup →
        utf8Bytes (dumps (Json.obj fields)) =
          utf8Bytes (dumps (Json.obj fields'))
        ∧ hSub (Json.obj fields) = hSub (Json.obj fields')) := by
  refine ⟨?_, ?_, ?_, ?_⟩
  · intro c hc
    have h1 : ¬(c = '\\') := by
      intro h; rw [h] at hc; exact absurd hc (by decide)
    have h2 : ¬(c = '"') := by
      intro h; rw [h] at hc; exact absurd hc (by decide)
    have h3 : 0x20 ≤ c.toNat := le_trans (by decide) hc
    simp [escapeChar, h1, h2, h3]
  · intro s hs
    have hesc : s.data.map escapeChar = s.data.map (fun c => [c]) := by
      apply List.map_congr_left
      intro c hc
      obtain ⟨hge, hq, hb⟩ := hs c hc
      simp [escapeChar, hq, hb, hge]
    show utf8Bytes (encStr s) = _
    unfold encStr
    rw [hesc, flatten_map_singleton]
    simp only [utf8Bytes_eq_ofChars]
    show utf8OfChars (['"'] ++ s.data ++ ['"']) = _
    rw [utf8OfChars_append, utf8OfChars_append]
  · intro c h1 h2
    have hns : ¬(c = '\\') := by
      intro h; rw [h] at h1; exact absurd h1 (by decide)
    have hnq : ¬(c = '"') := by
      intro h; rw [h] at h1; exact absurd h1 (by decide)
    have h8 : ¬(c.toNat = 8) := by omega
    have h12 : ¬(c.toNat = 12) := by omega
    have h10 : ¬(c.toNat = 10) := by omega
    have h13 : ¬(c.toNat = 13) := by omega
    have h9 : ¬(c.toNat = 9) := by omega
    have hwin : ¬(0x20 ≤ c.toNat ∧ c.toNat ≤ 0x7e) := by omega
    have heq : escapeCharAscii c = '\\' :: 'u' :: hexQuad c.toNat := by
      simp [escapeCharAscii, hns, hnq, h8, h12, h10, h13, h9, hwin, h2]
    refine ⟨heq, ?_⟩
    rw [heq]
    intro x hx
    rcases List.mem_cons.mp hx with rfl | hx
    · decide
    rcases List.mem_cons.mp hx with rfl | hx
    · decide
    simp only [hexQuad, List.mem_cons, List.not_mem_nil, or_false] at hx
    rcases hx with rfl | rfl | rfl | rfl <;>
      exact hexChar_toNat_lt (Nat.mod_lt _ (by decide))
  · intro fields fields' hp hnd
    refine ⟨?_, ?_⟩
    · rw [dumps_obj_perm_inv fields fields' hp hnd]
    · show sha256hex (utf8Bytes (dumpsAscii (Json.obj fields))) =
        sha256hex (utf8Bytes (dumpsAscii (Json.obj fields')))
      rw [dumpsAscii_obj_perm_inv fields fields' hp hnd]

/-- Witness for C4 as amended: a non-ASCII character through each encoder,
and a two-field object with its fields swapped. -/
theorem C4_encoder_non_ascii_amended_witness :
    escapeChar 'é' = ['é']
    ∧ utf8Bytes (dumps (Json.str "né")) =
        utf8Bytes "\"" ++ utf8Bytes "né" ++ utf8Bytes "\""
    ∧ escapeCharAscii 'é' = '\\' :: 'u' :: hexQuad 'é'.toNat
    ∧ hSub (Json.obj [("b", Json.num 1), ("a", Json.str "é")]) =
        hSub (Json.obj [("a", Json.str "é"), ("b", Json.num 1)]) := by
  refine ⟨?_, ?_, ?_, ?_⟩
  · exact C4_encoder_non_ascii_amended.1 'é' (by decide)
  · exact C4_encoder_non_ascii_amended.2.1 "né" (by decide)
  · exact (C4_encoder_non_ascii_amended.2.2.1 'é'
      (by decide) (by decide)).1
  · exact (C4_encoder_non_ascii_amended.2.2.2
      [("b", Json.num 1), ("a", Json.str "é")]
      [("a", Json.str "é"), ("b", Json.num 1)]
      (List.Perm.swap ("a", Json.str "é") ("b", Json.num 1) [])
      (by decide)).2

/-- C5: each epoch's verifier list is the sorted set of distinct user
identities among the entries sharing its hash (repeats count once), its
count is that list's length, and it is `CONSENSUS_CONFIRMED` exactly when
the count reaches the quorum, else `PENDING`; in particular, 3 distinct
verifiers on `h1` and 1 on `h2` under quorum 3 confirm `h1` with count 3
and leave `h2` pending with count 1. -/
theorem C5_quorum_arithmetic :
    (∀ (entries : List Entry) (q : Nat) (today : String),
        ∀ ep ∈ computeEpochs entries q today,
          ep.verifiers = sortedDistinct
            ((entries.filter
              (fun e => entryHash e == some ep.hash)).map userOf)
          ∧ ep.count = ep.verifiers.length
          ∧ (ep.status = "CONSENSUS_CONFIRMED" ↔ q ≤ ep.count)
          ∧ (ep.status = "CONSENSUS_CONFIRMED" ∨ ep.status = "PENDING"))
    ∧ computeEpochs
        [⟨some "a", some "h1", none⟩, ⟨some "b", some "h1", none⟩,
         ⟨some "c", some "h1", none⟩, ⟨some "d", some "h2", none⟩] 3 "d0" =
      [⟨"d0", "h1", ["a", "b", "c"], 3, "CONSENSUS_CONFIRMED"⟩,
       ⟨"d0", "h2", ["d"], 1, "PENDING"⟩] := by
  constructor
  · intro entries q today ep hmem
    rw [computeEpochs_eq] at hmem
    have hmem' := (List.perm_insertionSort epochLe _).subset hmem
    obtain ⟨k, _, rfl⟩ := List.mem_map.mp hmem'
    have hstat : (epochOfGroup today q k
        (entries.filter (fun e => entryHash e == some k))).status =
        (if (sortedDistinct ((entries.filter
            (fun e => entryHash e == some k)).map userOf)).length ≥ q
          then "CONSENSUS_CONFIRMED" else "PENDING") := rfl
    refine ⟨rfl, rfl, ?_, ?_⟩
    · rw [hstat]
      by_cases hq : (sortedDistinct ((entries.filter
          (fun e => entryHash e == some k)).map userOf)).length ≥ q
      · rw [if_pos hq]
        exact ⟨fun _ => hq, fun _ => rfl⟩
      · rw [if_neg hq]
        exact ⟨fun hst => absurd hst (by decide), fun hle => absurd hle hq⟩
    · rw [hstat]
      by_cases hq : (sortedDistinct ((entries.filter
          (fun e => entryHash e == some k)).map userOf)).length ≥ q
      · left; rw [if_pos hq]
      · right; rw [if_neg hq]
  · decide

/-- Witness for C5 at the first epoch of the quorum test scenario. -/
theorem C5_quorum_arithmetic_witness :
    (⟨"d0", "h1", ["a", "b", "c"], 3, "CONSENSUS_CONFIRMED"⟩ : Epoch).status
        = "CONSENSUS_CONFIRMED"
      ↔ 3 ≤ (⟨"d0", "h1", ["a", "b", "c"], 3,
        "CONSENSUS_CONFIRMED"⟩ : Epoch).count :=
  (C5_quorum_arithmetic.1
    [⟨some "a", some "h1", none⟩, ⟨some "b", some "h1", none⟩,
     ⟨some "c", some "h1", none⟩, ⟨some "d", some "h2", none⟩] 3 "d0"
    ⟨"d0", "h1", ["a", "b", "c"], 3, "CONSENSUS_CONFIRMED"⟩
    (by rw [C5_quorum_arithmetic.2]; exact List.mem_cons_self _ _)).2.2.1

/-- C6: the epoch list is ordered with confirmed groups before pending
ones and ascending commitment hash within equal status (`epochLe` is
exactly that order), and the output is identical for any permutation of
the registry entry list. -/
theorem C6_deterministic_ordering :
    (∀ (entries : List Entry) (q : Nat) (today : String),
        List.Sorted epochLe (computeEpochs entries q today))
    ∧ (∀ (entries entries' : List Entry) (q : Nat) (today : String),
        List.Perm entries entries' →
        computeEpochs entries q today = computeEpochs entries' q today) :=
  ⟨computeEpochs_sorted, computeEpochs_perm_inv⟩

/-- Witness for C6: reversing the registry leaves the ledger unchanged. -/
theorem C6_deterministic_ordering_witness :
    computeEpochs
        [⟨some "a", some "h2", none⟩, ⟨some "b", some "h1", none⟩,
         ⟨some "c", some "h1", none⟩, ⟨some "d", some "h1", none⟩] 3 "d0" =
      computeEpochs
        [⟨some "d", some "h1", none⟩, ⟨some "c", some "h1", none⟩,
         ⟨some "b", some "h1", none⟩, ⟨some "a", some "h2", none⟩] 3 "d0" :=
  C6_deterministic_ordering.2 _ _ 3 "d0" (by decide)

/-- C7: an audit reports the number of bundles examined, the number that
replayed successfully, one drift entry (identifier plus reason) per
failing bundle — an unreadable/malformed bundle surfaces as drift with the
raised error as its reason rather than being skipped or aborting the rest
— and `ok` exactly when every checked bundle verified. -/
theorem C7_audit_report :
    (∀ (vf : String → Except String Json) (bundles : List String),
        (auditLastN vf bundles).checked = bundles.length
        ∧ (auditLastN vf bundles).verified =
            (bundles.filter (fun b => (replayBundle vf b).ok)).length
        ∧ (auditLastN vf bundles).drift =
            (bundles.filter (fun b => !(replayBundle vf b).ok)).map
              (fun b => { bundle := b, reason := (replayBundle vf b).reason })
        ∧ (auditLastN vf bundles).ok =
            ((auditLastN vf bundles).verified ==
              (auditLastN vf bundles).checked))
    ∧ (∀ (vf : String → Except String Json) (path e : String),
        vf path = Except.error e →
        replayBundle vf path = { ok := false, reason := some e })
    ∧ (∀ (vf : String → Except String Json) (bundles : List String),
        (∀ b ∈ bundles, ∀ e, vf b = Except.error e → e ≠ "") →
        ∀ d ∈ (auditLastN vf bundles).drift,
          ∃ s, d.reason = some s ∧ s ≠ "") := by
  have hdrift : ∀ (vf : String → Except String Json) (bundles : List String),
      (auditLastN vf bundles).drift =
        (bundles.filter (fun b => !(replayBundle vf b).ok)).map
          (fun b => { bundle := b, reason := (replayBundle vf b).reason }) := by
    intro vf bundles
    show (auditLoop vf bundles 0 []).2 = _
    rw [auditLoop_spec]
    exact List.nil_append _
  refine ⟨?_, ?_, ?_⟩
  · intro vf bundles
    refine ⟨rfl, ?_, hdrift vf bundles, rfl⟩
    show (auditLoop vf bundles 0 []).1 = _
    rw [auditLoop_spec]
    exact Nat.zero_add _
  · intro vf path e h
    simp [replayBundle, h]
  · intro vf bundles hne d hd
    rw [hdrift] at hd
    obtain ⟨b, hb, rfl⟩ := List.mem_map.mp hd
    have hbmem : b ∈ bundles := (List.mem_filter.mp hb).1
    have hnok : (replayBundle vf b).ok = false := by
      have := (List.mem_filter.mp hb).2
      simpa using this
    cases hvf : vf b with
    | ok result =>
        have htr : jsonTruthy ((jsonGet result "ok").getD Json.null) =
            false := by
          simpa [replayBundle, hvf] using hnok
        refine ⟨"verify_bundle_failed", ?_, by decide⟩
        simp [replayBundle, hvf, htr]
    | error e =>
        exact ⟨e, by simp [replayBundle, hvf], hne b hbmem e hvf⟩

/-- Witness for C7 on one verifying and one raising bundle. -/
theorem C7_audit_report_witness :
    (auditLastN vfW ["a.json", "b.json"]).checked = 2
    ∧ replayBundle vfW "b.json" = { ok := false, reason := some "boom" }
    ∧ ∀ d ∈ (auditLastN vfW ["a.json", "b.json"]).drift,
        ∃ s, d.reason = some s ∧ s ≠ "" := by
  refine ⟨(C7_audit_report.1 vfW _).1, ?_, ?_⟩
  · exact C7_audit_report.2.1 vfW "b.json" "boom" rfl
  · apply C7_audit_report.2.2 vfW ["a.json", "b.json"]
    intro b hb e he
    rcases List.mem_cons.mp hb with rfl | hb'
    · simp [vfW] at he
    · rcases List.mem_cons.mp hb' with rfl | hb''
      · have hbe : "boom" = e := by simpa [vfW] using he
        subst hbe
        decide
      · simp at hb''

/-- C8: `verify` raises `HashMismatchError` exactly when the master
recomputed from the recorded steps differs from the stored one; on an
unmodified finalized run it returns `True` with every stored value
unchanged, and so does a second call. -/
theorem C8_verify_idempotent :
    ∀ (r : BoRRun) (p : Proof), r.proof = some p →
      ((∃ msg, verify r = Except.error (BorError.hashMismatch msg)) ↔
        (finalize r).2.master ≠ p.master)
      ∧ (p = (finalize r).2 →
          verify r = Except.ok (r, true)
          ∧ (finalize r).1 = r
          ∧ (verify r >>= fun x => verify x.1) = Except.ok (r, true)) := by
  intro r p hp
  constructor
  · constructor
    · rintro ⟨msg, hmsg⟩
      by_contra heq
      have hmaster : (finalize r).2.master = p.master := heq
      simp only [verify, hp, hmaster, ne_eq, not_true_eq_false,
        if_false, reduceIte] at hmsg
      exact Except.noConfusion hmsg
    · intro hne
      refine ⟨"Master proof mismatch: reasoning diverged.", ?_⟩
      simp only [verify, hp]
      rw [if_pos hne]
  · intro hpe
    have h1 : (finalize r).1 = r := by
      show { r with proof := some (finalize r).2 } = r
      rw [← hpe, ← hp]
    have h2 : verify r = Except.ok (r, true) := by
      have hcond : ¬((finalize r).2.master ≠ p.master) := by
        rw [hpe]; exact fun hcon => hcon rfl
      simp only [verify, hp]
      rw [if_neg hcond, h1]
    refine ⟨h2, h1, ?_⟩
    rw [h2]
    exact h2

/-- Witness for C8: a concrete finalized unmodified run verifies twice. -/
theorem C8_verify_idempotent_witness :
    verify ((finalize (BoRRun.init (Json.num 7) (Json.obj []) "v1"
        Json.null)).1) =
      Except.ok ((finalize (BoRRun.init (Json.num 7) (Json.obj []) "v1"
        Json.null)).1, true) :=
  ((C8_verify_idempotent
    (finalize (BoRRun.init (Json.num 7) (Json.obj []) "v1" Json.null)).1
    (finalize (BoRRun.init (Json.num 7) (Json.obj []) "v1" Json.null)).2
    rfl).2 rfl).1

/-- C9 counterexample: a non-callable step object named `foo` is rejected
with the fixed message `"Step must be a callable."`, which does not name
the function. -/
theorem C9_counterexample :
    addStep (BoRRun.init (Json.num 0) (Json.obj []) "v1" Json.null)
        nonCallableFn =
      Except.error (BorError.determinism "Step must be a callable.")
    ∧ nonCallableFn.name = "foo"
    ∧ strOccurs nonCallableFn.name "Step must be a callable." = false :=
  ⟨rfl, rfl, by decide⟩

/-- C9 as amended: a non-callable step raises `DeterminismError` with the
fixed message `"Step must be a callable."` (which does not name the
function); a callable step that raises yields a `DeterminismError` whose
message names the failing function; in either case `add_step` returns no
new run state — no step record is appended — and a failed step list makes
`build_bundle` return that error, so no bundle is finalized. -/
theorem C9_step_failure_aborts :
    (∀ (r : BoRRun) (fn : StepFn), fn.isCallable = false →
        addStep r fn = Except.error
          (BorError.determinism "Step must be a callable."))
    ∧ (∀ (r : BoRRun) (fn : StepFn) (e : String), fn.isCallable = true →
        fn.run (prevStateOf r) r.C r.V = Except.error e →
        addStep r fn = Except.error (BorError.determinism
          ("Function " ++ fn.name ++ " failed deterministically: " ++ e))
        ∧ strOccurs fn.name
            ("Function " ++ fn.name ++ " failed deterministically: " ++ e)
          = true)
    ∧ (∀ (S0 C : Json) (V : String) (env : Json) (stages : List StepFn)
        (err : BorError),
        runStepList (BoRRun.init S0 C V env) stages = Except.error err →
        ∀ (sp : SubproofSuite) (t : String),
          buildBundle sp S0 C V stages env t = Except.error err) := by
  refine ⟨?_, ?_, ?_⟩
  · intro r fn h
    simp [addStep, h]
  · intro r fn e hc hrun
    refine ⟨by simp [addStep, hc, hrun], ?_⟩
    rw [show ("Function " ++ fn.name ++ " failed deterministically: " ++ e) =
        "Function " ++ fn.name ++ (" failed deterministically: " ++ e) by
      rw [String.append_assoc]]
    exact strOccurs_append fn.name "Function "
      (" failed deterministically: " ++ e)
  · intro S0 C V env stages err h sp t
    simp [buildBundle, buildPrimary, h]

/-- Witness for C9 as amended, at a non-callable step, a raising step, and
a failing stage list fed to the bundle builder. -/
theorem C9_step_failure_aborts_witness :
    addStep (BoRRun.init (Json.num 0) (Json.obj []) "v1" Json.null)
        nonCallableFn =
      Except.error (BorError.determinism "Step must be a callable.")
    ∧ strOccurs raisingFn.name
        ("Function " ++ raisingFn.name ++
          " failed deterministically: " ++ "boom") = true
    ∧ buildBundle trivSuite (Json.num 0) (Json.obj []) "v1" [nonCallableFn]
        Json.null "t1" =
      Except.error (BorError.determinism "Step must be a callable.") := by
  refine ⟨?_, ?_, ?_⟩
  · exact C9_step_failure_aborts.1
      (BoRRun.init (Json.num 0) (Json.obj []) "v1" Json.null)
      nonCallableFn rfl
  · exact (C9_step_failure_aborts.2.1
      (BoRRun.init (Json.num 0) (Json.obj []) "v1" Json.null)
      raisingFn "boom" rfl rfl).2
  · exact C9_step_failure_aborts.2.2 (Json.num 0) (Json.obj []) "v1"
      Json.null [nonCallableFn] (BorError.determinism
        "Step must be a callable.") rfl trivSuite "t1"

theorem dedup_const {a : String} : ∀ l : List String, l ≠ [] →
    (∀ x ∈ l, x = a) → l.dedup = [a] := by
  intro l
  induction l with
  | nil => intro h; exact absurd rfl h
  | cons x t ih =>
      intro _ hall
      have hx : x = a := hall x (List.mem_cons_self x t)
      subst hx
      cases t with
      | nil => simp
      | cons y t' =>
          have hmem : x ∈ y :: t' := by
            have hy : y = x :=
              hall y (List.mem_cons_of_mem _ (List.mem_cons_self y t'))
            rw [hy]
            exact List.mem_cons_self x t'
          rw [List.dedup_cons_of_mem hmem]
          exact ih (by simp) (fun z hz => hall z (List.mem_cons_of_mem _ hz))

theorem nodup_eq_singleton (l : List String) (h : String) (hnd : l.Nodup)
    (hmem : ∀ k, k ∈ l ↔ k = h) : l = [h] := by
  cases l with
  | nil => exact absurd ((hmem h).mpr rfl) (by simp)
  | cons x t =>
      have hx : x = h := (hmem x).mp (List.mem_cons_self x t)
      subst hx
      have ht : t = [] := by
        cases t with
        | nil => rfl
        | cons y t' =>
            exfalso
            have hy : y = x :=
              (hmem y).mp (List.mem_cons_of_mem _ (List.mem_cons_self y t'))
            apply (List.nodup_cons.mp hnd).1
            rw [← hy]
            exact List.mem_cons_self y t'
      rw [ht]

/-- C10: a registry entry with no `user` field counts as the verifier
`"unknown"`; a nonempty group made only of such anonymous entries has a
distinct-verifier count of exactly 1, so anonymous entries alone are
pending under any quorum above 1. -/
theorem C10_anonymous_verifier :
    (∀ e : Entry, e.user = none → userOf e = "unknown")
    ∧ (∀ (entries : List Entry) (h : String) (q : Nat) (today : String),
        entries ≠ [] →
        (∀ e ∈ entries, e.user = none) →
        (∀ e ∈ entries, entryHash e = some h) →
        computeEpochs entries q today =
          [{ epoch := today, hash := h, verifiers := ["unknown"], count := 1
             status := if 1 ≥ q then "CONSENSUS_CONFIRMED" else "PENDING" }]
        ∧ (1 < q → ∀ ep ∈ computeEpochs entries q today,
            ep.status = "PENDING")) := by
  constructor
  · intro e he
    simp [userOf, he]
  · intro entries h q today hne huser hhash
    have hkeys : groupKeys (groupByHrich entries) = [h] := by
      apply nodup_eq_singleton _ _ (groupByHrich_keys_nodup entries)
      intro k
      rw [mem_groupByHrich_keys]
      constructor
      · rintro ⟨e, he, hh⟩
        rw [hhash e he] at hh
        exact (Option.some_inj.mp hh).symm
      · rintro rfl
        obtain ⟨e, he⟩ := List.exists_mem_of_ne_nil entries hne
        exact ⟨e, he, hhash e he⟩
    have hfilter : entries.filter (fun e => entryHash e == some h) =
        entries :=
      List.filter_eq_self.mpr (fun e he => by rw [hhash e he]; simp)
    have hdedup : (entries.map userOf).dedup = ["unknown"] := by
      apply dedup_const
      · simp [hne]
      · intro x hx
        obtain ⟨e, he, rfl⟩ := List.mem_map.mp hx
        simp [userOf, huser e he]
    have hsd : sortedDistinct (entries.map userOf) = ["unknown"] := by
      unfold sortedDistinct
      rw [hdedup]
      rfl
    have hmain : computeEpochs entries q today =
        [{ epoch := today, hash := h, verifiers := ["unknown"], count := 1
           status := if 1 ≥ q then "CONSENSUS_CONFIRMED"
                     else "PENDING" }] := by
      rw [computeEpochs_eq, hkeys]
      show List.insertionSort epochLe
        [epochOfGroup today q h
          (entries.filter (fun e => entryHash e == some h))] = _
      rw [hfilter]
      show [epochOfGroup today q h entries] = _
      unfold epochOfGroup
      rw [hsd]
      rfl
    refine ⟨hmain, ?_⟩
    intro hq ep hep
    rw [hmain] at hep
    rw [List.mem_singleton.mp hep]
    show (if 1 ≥ q then "CONSENSUS_CONFIRMED" else "PENDING") = "PENDING"
    rw [if_neg (by omega)]

/-- Witness for C10: two anonymous entries on one commitment stay pending
under quorum 3 with distinct-verifier count 1. -/
theorem C10_anonymous_verifier_witness :
    computeEpochs
        [⟨none, some "hx", none⟩, ⟨none, some "hx", none⟩] 3 "d0" =
      [{ epoch := "d0", hash := "hx", verifiers := ["unknown"], count := 1
         status := if 1 ≥ 3 then "CONSENSUS_CONFIRMED" else "PENDING" }]
    ∧ ∀ ep ∈ computeEpochs
        [⟨none, some "hx", none⟩, ⟨none, some "hx", none⟩] 3 "d0",
        ep.status = "PENDING" := by
  have h := C10_anonymous_verifier.2
    [⟨none, some "hx", none⟩, ⟨none, some "hx", none⟩] "hx" 3 "d0"
    (by decide) (by decide) (by decide)
  exact ⟨h.1, h.2 (by omega)⟩

end BoR
